import Mathlib

/-!
A shallow embedding of the persistent EVM state backend in
`src/contract/src/state.cpp` (namespace `evm_runtime`).

Tables are modelled as Lean lists of records; the EOSIO multi-index
substrate's `available_primary_key` is "largest existing primary key + 1,
or 0 on an empty table"; secondary-index `find` is the first record with
the given key; `erase` removes that record; `modify` updates it in place.
256-bit words (addresses, hashes, slot keys and values) are modelled as
`Nat` — they are only ever compared for equality, never used
arithmetically, and the byte encodings (`make_key`, `to_bytes`,
`intx::be::load`) are injective, so nothing is lost.  `ref_count` is a
`uint32_t`: its unguarded increment is modelled with an explicit
`% 2 ^ 32`; its decrement is guarded by `> 0` in the source and modelled
the same way.
-/

namespace EvmRuntime

/-- keccak256 of the empty byte string (`silkworm::kEmptyHash`). -/
def kEmptyHash : Nat := 0xc5d2460186f7233c927e7db2dcc703c0e500b653ca82273b7bfad8045d85a470

/-- EVM-side account snapshot (`silkworm::Account` as used by `state.cpp`):
`read_account` returns `{nonce, balance, code_hash, incarnation = 0}` and
`update_account` receives optional initial/current snapshots. -/
structure Account where
  nonce : Nat
  balance : Nat
  code_hash : Nat
  incarnation : Nat
deriving DecidableEq, Repr

/-- Row of the `account_table`: `{id, eth_address, nonce, balance, code_hash}`,
primary key `id`, secondary index by address; `code_hash` is an optional
byte field (absent encodes "no code"). -/
structure AccountRow where
  id : Nat
  eth_address : Nat
  nonce : Nat
  balance : Nat
  code_hash : Option Nat
deriving DecidableEq, Repr

/-- Row of a per-account `storage_table` (scope = owning account's id):
`{id, key, value}` with secondary index by key. -/
structure StorageRow where
  scope : Nat
  id : Nat
  key : Nat
  value : Nat
deriving DecidableEq, Repr

/-- Row of the `account_code_table`: `{id, code_hash, code, ref_count}`,
secondary index by code hash. -/
structure CodeRow where
  id : Nat
  code_hash : Nat
  code : List Nat
  ref_count : Nat
deriving DecidableEq, Repr

/-- Row of the storage garbage-collection queue `gc_store_table`:
`{id, storage_id}` where `storage_id` is the deleted account's id. -/
structure GcStoreRow where
  id : Nat
  storage_id : Nat
deriving DecidableEq, Repr

/-- Row of the code garbage-collection queue `gc_code_table`: `{id, code_id}`. -/
structure GcCodeRow where
  id : Nat
  code_id : Nat
deriving DecidableEq, Repr

/-- The five persistent tables of the contract.  Rows are kept in
primary-key order: fresh ids are `max + 1`, so emplacement appends. -/
structure State where
  accounts : List AccountRow
  storage : List StorageRow
  codes : List CodeRow
  gc_store : List GcStoreRow
  gc_code : List GcCodeRow
deriving DecidableEq, Repr

/-- The two mutable per-transition caches of `state`: `addr2id`
(address → account id) and `addr2code` (code hash → bytes), both
`std::map`s. -/
structure Caches where
  addr2id : List (Nat × Nat)
  addr2code : List (Nat × List Nat)
deriving DecidableEq, Repr

def emptyState : State := ⟨[], [], [], [], []⟩

def emptyCaches : Caches := ⟨[], []⟩

/-- The `available_primary_key()`: 0 on an empty table, else largest id + 1. -/
def nextId (ids : List Nat) : Nat :=
  match ids with
  | [] => 0
  | _ => ids.foldr Nat.max 0 + 1

/-- The `std::map::find` on an association list. -/
def alookup (k : Nat) : List (Nat × α) → Option α
  | [] => none
  | (k', v) :: rest => if k' = k then some v else alookup k rest

/-- The `std::map::operator[] = v` on an association list. -/
def aset (k : Nat) (v : α) : List (Nat × α) → List (Nat × α)
  | [] => [(k, v)]
  | (k', v') :: rest => if k' = k then (k, v) :: rest else (k', v') :: aset k v rest

/-- The `table.modify(*itr, ...)` where `itr` is the first row satisfying `p`. -/
def modifyFirst (p : α → Bool) (f : α → α) : List α → List α
  | [] => []
  | x :: xs => if p x then f x :: xs else x :: modifyFirst p f xs

/-- Modelled from the spec: the `get_code_hash` accessor lives in
`tables.hpp`, which is missing from `src/`; the spec says "`code_hash`
absent means no code", surfaced to the EVM as the canonical empty-code
hash. -/
def get_code_hash (r : AccountRow) : Nat := r.code_hash.getD kEmptyHash

def findAccount (s : State) (addr : Nat) : Option AccountRow :=
  s.accounts.find? (fun r => r.eth_address == addr)

def findCode (s : State) (h : Nat) : Option CodeRow :=
  s.codes.find? (fun c => c.code_hash == h)

def findSlot (storage : List StorageRow) (scope loc : Nat) : Option StorageRow :=
  storage.find? (fun e => e.scope == scope && e.key == loc)

/-- The `state::read_account` (state.cpp lines 10–24): secondary-index lookup
by address; on miss returns empty; on hit caches `addr2id[address]` and
returns the snapshot. -/
def read_account (s : State) (c : Caches) (addr : Nat) : Option Account × Caches :=
  match findAccount s addr with
  | none => (none, c)
  | some r =>
    (some ⟨r.nonce, r.balance, get_code_hash r, 0⟩,
     { c with addr2id := aset addr r.id c.addr2id })

/-- The `state::read_code` (lines 26–44): per-transition cache first; on miss
looks up by content hash; unknown hash or empty stored bytes yield an
empty view (and are not cached); otherwise the bytes are cached and
returned. -/
def read_code (s : State) (c : Caches) (h : Nat) : List Nat × Caches :=
  match alookup h c.addr2code with
  | some code => (code, c)
  | none =>
    match findCode s h with
    | none => ([], c)
    | some row =>
      if row.code.length = 0 then ([], c)
      else (row.code, { c with addr2code := aset h row.code c.addr2code })

/-- The `state::read_storage` (lines 46–72): resolves the address through the
`addr2id` cache, falling back to (and populating from) the account table;
a missing account yields zero; then looks the location up in the scoped
storage table, a missing slot yielding zero. -/
def read_storage (s : State) (c : Caches) (addr : Nat) (_incarnation : Nat)
    (loc : Nat) : Nat × Caches :=
  match alookup addr c.addr2id with
  | some i =>
    (match findSlot s.storage i loc with
     | none => 0
     | some e => e.value, c)
  | none =>
    match findAccount s addr with
    | none => (0, c)
    | some r =>
      (match findSlot s.storage r.id loc with
       | none => 0
       | some e => e.value,
       { c with addr2id := aset addr r.id c.addr2id })

/-- The `state::previous_incarnation` (lines 74–76): always 0. -/
def previous_incarnation (_addr : Nat) : Nat := 0

/-- The `state::begin_block` (line 78): a no-op. -/
def begin_block (_block_number : Nat) (s : State) : State := s

/-- The `if cur.code_hash == silkworm::kEmptyHash then nullopt else some ...`
as written in both branches of `update_account` (lines 99 and 105). -/
def normalizeHash (h : Nat) : Option Nat :=
  if h = kEmptyHash then none else some h

/-- The `state::update_account` (lines 80–145).  No-op when `current ==
initial`.  With a present `current`: emplaces a fresh row (normalizing an
empty-code hash to absent) or modifies nonce/balance/code_hash in place.
With an absent `current` and an existing row: enqueues the account id on
the storage GC queue; if the row carries a code hash, looks the code
object up — a missing object is defensively ignored ("SHOULD NOT REACH
HERE"), otherwise a GC entry is enqueued when `ref_count <= 1` and the
count is decremented under a `> 0` guard; finally the account row is
erased. -/
def update_account (addr : Nat) (initial current : Option Account) (s : State) : State :=
  if current = initial then s
  else
    match current with
    | some cur =>
      match findAccount s addr with
      | none =>
        { s with accounts := s.accounts ++
            [⟨nextId (s.accounts.map (fun r => r.id)), addr, cur.nonce, cur.balance,
              normalizeHash cur.code_hash⟩] }
      | some _ =>
        let accts :=
          modifyFirst (fun r => r.eth_address == addr)
            (fun r => { r with nonce := cur.nonce,
                               code_hash := normalizeHash cur.code_hash,
                               balance := cur.balance }) s.accounts
        { s with accounts := accts }
    | none =>
      match findAccount s addr with
      | none => s
      | some r =>
        let s1 : State :=
          { s with gc_store := s.gc_store ++
              [⟨nextId (s.gc_store.map (fun g => g.id)), r.id⟩] }
        let s2 : State :=
          match r.code_hash with
          | none => s1
          | some h =>
            match findCode s1 h with
            | none => s1
            | some c =>
              let s1a : State :=
                if c.ref_count ≤ 1 then
                  { s1 with gc_code := s1.gc_code ++
                      [⟨nextId (s1.gc_code.map (fun g => g.id)), c.id⟩] }
                else s1
              let codes1 :=
                modifyFirst (fun c2 => c2.code_hash == h)
                  (fun row => { row with ref_count :=
                      if row.ref_count > 0 then row.ref_count - 1 else row.ref_count })
                  s1a.codes
              { s1a with codes := codes1 }
        { s2 with accounts := s2.accounts.eraseP (fun r2 => r2.eth_address == addr) }

/-- Inner loop of `state::gc` (lines 151–156): `while (max && sitr !=
db.end()) { sitr = db.erase(sitr); --max; }` on the storage table scoped
to one deleted account. -/
def eraseScopeSteps : Nat → Nat → List StorageRow → Nat × List StorageRow
  | 0, _, st => (0, st)
  | m + 1, scope, st =>
    match st.find? (fun e => e.scope == scope) with
    | none => (m + 1, st)
    | some _ => eraseScopeSteps m scope (st.eraseP (fun e => e.scope == scope))

/-- Outer storage loop of `state::gc` (lines 148–160): drains each queued
scope within budget; if the budget dies mid-scope the queue entry is kept,
otherwise removing the entry itself costs one unit. -/
def gcStoreLoop : Nat → List GcStoreRow → List StorageRow →
    Nat × List GcStoreRow × List StorageRow
  | max, [], st => (max, [], st)
  | max, e :: rest, st =>
    if max = 0 then (0, e :: rest, st)
    else
      let r := eraseScopeSteps max e.storage_id st
      if r.1 = 0 then (0, e :: rest, r.2)
      else gcStoreLoop (r.1 - 1) rest r.2

/-- Body of the code loop of `state::gc` (lines 165–170): the code row is
erased (one budget unit) only when still present with `ref_count == 0`. -/
def gcCodeStep (max : Nat) (j : GcCodeRow) (codes : List CodeRow) :
    Nat × List CodeRow :=
  match codes.find? (fun c => c.id == j.code_id) with
  | some c =>
    if max ≠ 0 ∧ c.ref_count = 0 then
      (max - 1, codes.eraseP (fun c2 : CodeRow => c2.id == j.code_id))
    else (max, codes)
  | none => (max, codes)

/-- Code loop of `state::gc` (lines 162–174): for each queued code id, the
code row is erased (one unit) only when still present with `ref_count == 0`;
the queue entry is then removed (one unit) unless the budget just died. -/
def gcCodeLoop : Nat → List GcCodeRow → List CodeRow →
    Nat × List GcCodeRow × List CodeRow
  | max, [], codes => (max, [], codes)
  | max, j :: rest, codes =>
    if max = 0 then (0, j :: rest, codes)
    else
      let r := gcCodeStep max j codes
      if r.1 = 0 then (0, j :: rest, r.2)
      else gcCodeLoop (r.1 - 1) rest r.2

/-- The `state::gc` (lines 147–176): drains the storage queue then the code
queue under one shared budget and reports whether both queues ended empty. -/
def gc (max : Nat) (s : State) : Bool × State :=
  let r1 := gcStoreLoop max s.gc_store s.storage
  let r2 := gcCodeLoop r1.1 s.gc_code s.codes
  (r1.2.1.isEmpty && r2.2.1.isEmpty,
   { s with storage := r1.2.2, gc_store := r1.2.1, gc_code := r2.2.1, codes := r2.2.2 })

/-- The `state::update_account_code` (lines 178–214): emplaces a fresh code
row with `ref_count = 1` when the hash is new, otherwise only increments
the existing row's `ref_count` (a `uint32_t`); then sets the account's
`code_hash`, emplacing the account row with nonce 0 when absent. -/
def update_account_code (addr : Nat) (_incarnation : Nat) (code_hash : Nat)
    (code : List Nat) (s : State) : State :=
  let s1 : State :=
    match findCode s code_hash with
    | none =>
      { s with codes := s.codes ++
          [⟨nextId (s.codes.map (fun c => c.id)), code_hash, code, 1⟩] }
    | some _ =>
      let codes1 :=
        modifyFirst (fun c => c.code_hash == code_hash)
          (fun row => { row with ref_count := (row.ref_count + 1) % 2 ^ 32 }) s.codes
      { s with codes := codes1 }
  match findAccount s1 addr with
  | some _ =>
    let accts :=
      modifyFirst (fun r => r.eth_address == addr)
        (fun row => { row with code_hash := some code_hash }) s1.accounts
    { s1 with accounts := accts }
  | none =>
    { s1 with accounts := s1.accounts ++
        [⟨nextId (s1.accounts.map (fun r => r.id)), addr, 0, 0, some code_hash⟩] }

/-- The `state::update_storage` (lines 216–266): a zero `current` deletes the
slot when both the account and the slot exist (no-op otherwise); a nonzero
`current` lazily emplaces the account row (nonce 0, `code_hash` set to the
stored bytes of `kEmptyHash`) when absent, then creates or overwrites the
slot record. -/
def update_storage (addr : Nat) (_incarnation loc _initial current : Nat)
    (s : State) : State :=
  let itr := findAccount s addr
  if current = 0 then
    match itr with
    | none => s
    | some r =>
      match findSlot s.storage r.id loc with
      | none => s
      | some _ =>
        { s with storage := s.storage.eraseP (fun e => e.scope == r.id && e.key == loc) }
  else
    let idAndState : Nat × State :=
      match itr with
      | none =>
        (nextId (s.accounts.map (fun r => r.id)),
         { s with accounts := s.accounts ++
             [⟨nextId (s.accounts.map (fun r => r.id)), addr, 0, 0, some kEmptyHash⟩] })
      | some r => (r.id, s)
    let table_id := idAndState.1
    let s1 := idAndState.2
    match findSlot s1.storage table_id loc with
    | none =>
      { s1 with storage := s1.storage ++
          [⟨table_id, nextId ((s1.storage.filter (fun e => e.scope == table_id)).map
              (fun e => e.id)), loc, current⟩] }
    | some _ =>
      let st :=
        modifyFirst (fun e => e.scope == table_id && e.key == loc)
          (fun e => { e with value := current }) s1.storage
      { s1 with storage := st }

/-- The `state::read_header` (lines 268–272): `eosio::check(false, ...)`. -/
def read_header (_block_number _block_hash : Nat) : Except String Unit :=
  Except.error "read_header not implemented"

/-- The `state::read_body` (lines 274–278). -/
def read_body (_block_number _block_hash : Nat) : Except String Unit :=
  Except.error "read_body not implemented"

/-- The `state::total_difficulty` (lines 280–284). -/
def total_difficulty (_block_number _block_hash : Nat) : Except String Unit :=
  Except.error "total_difficulty not implemented"

/-- The `state::current_canonical_block` (lines 286–289). -/
def current_canonical_block : Except String Unit :=
  Except.error "current_canonical_block not implemented"

/-- The `state::canonical_hash` (lines 291–294). -/
def canonical_hash (_block_number : Nat) : Except String Unit :=
  Except.error "canonical_hash not implemented"

/-- The `state::insert_block` (lines 296–298). -/
def insert_block (_block _hash : Nat) : Except String Unit :=
  Except.error "insert_block not implemented"

/-- The `state::canonize_block` (lines 300–302). -/
def canonize_block (_block_number _block_hash : Nat) : Except String Unit :=
  Except.error "canonize_block not implemented"

/-- The `state::decanonize_block` (lines 304–306). -/
def decanonize_block (_block_number : Nat) : Except String Unit :=
  Except.error "decanonize_block not implemented"

/-- The `state::insert_receipts` (lines 308–310). -/
def insert_receipts (_block_number : Nat) (_receipts : List Nat) : Except String Unit :=
  Except.error "insert_receipts not implemented"

/-- The `state::unwind_state_changes` (lines 312–314). -/
def unwind_state_changes (_block_number : Nat) : Except String Unit :=
  Except.error "unwind_state_changes not implemented"

/-- The `state::state_root_hash` (lines 316–319). -/
def state_root_hash : Except String Unit :=
  Except.error "state_root_hash not implemented"

/-- The state-mutating operations of the engine (reads touch only the
per-transition caches, never the tables). -/
inductive Op where
  | updAccount (addr : Nat) (initial current : Option Account)
  | updAccountCode (addr incarnation code_hash : Nat) (code : List Nat)
  | updStorage (addr incarnation loc initial current : Nat)
  | runGc (max : Nat)
  | beginBlock (n : Nat)
deriving DecidableEq, Repr

def exec (op : Op) (s : State) : State :=
  match op with
  | .updAccount addr i c => update_account addr i c s
  | .updAccountCode addr inc h code => update_account_code addr inc h code s
  | .updStorage addr inc loc i c => update_storage addr inc loc i c s
  | .runGc max => (gc max s).2
  | .beginBlock n => begin_block n s

def execList (ops : List Op) (s : State) : State :=
  match ops with
  | [] => s
  | op :: rest => execList rest (exec op s)

/-- Number of live account rows whose `code_hash` equals `some h`. -/
def countRef (accts : List AccountRow) (h : Nat) : Nat :=
  (accts.filter (fun r => r.code_hash == some h)).length

/-! ### List infrastructure -/

theorem le_foldr_max {x : Nat} {ids : List Nat} (hx : x ∈ ids) :
    x ≤ ids.foldr Nat.max 0 := by
  induction ids with
  | nil => cases hx
  | cons y ys ih =>
    rcases List.mem_cons.1 hx with h | h
    · subst h; exact Nat.le_max_left _ _
    · exact Nat.le_trans (ih h) (Nat.le_max_right _ _)

/-- Freshly allocated primary keys are not already in the table. -/
theorem nextId_not_mem (ids : List Nat) : nextId ids ∉ ids := by
  intro hmem
  match ids, hmem with
  | y :: ys, hmem =>
    have hle : nextId (y :: ys) ≤ (y :: ys).foldr Nat.max 0 := le_foldr_max hmem
    simp only [nextId] at hle
    omega

/-- Decomposition of a successful `find?`: the list splits at the first
match. -/
theorem find?_decomp {p : α → Bool} {l : List α} {a : α}
    (h : l.find? p = some a) :
    ∃ l1 l2, l = l1 ++ a :: l2 ∧ (∀ x ∈ l1, p x = false) ∧ p a = true := by
  induction l with
  | nil => cases h
  | cons y ys ih =>
    by_cases hy : p y = true
    · simp only [List.find?_cons, hy] at h
      cases h
      exact ⟨[], ys, rfl, by simp, hy⟩
    · simp only [List.find?_cons, Bool.of_not_eq_true hy] at h
      obtain ⟨l1, l2, hsplit, hl1, hpa⟩ := ih h
      exact ⟨y :: l1, l2, by simp [hsplit], by
        intro x hx
        rcases List.mem_cons.1 hx with rfl | hx
        · exact Bool.of_not_eq_true hy
        · exact hl1 x hx, hpa⟩

theorem modifyFirst_append_cons {p : α → Bool} {f : α → α} {l1 l2 : List α} {a : α}
    (hl1 : ∀ x ∈ l1, p x = false) (hpa : p a = true) :
    modifyFirst p f (l1 ++ a :: l2) = l1 ++ f a :: l2 := by
  induction l1 with
  | nil => simp [modifyFirst, hpa]
  | cons y ys ih =>
    have hy := hl1 y (by simp)
    simp only [List.cons_append, modifyFirst, hy]
    simp only [Bool.false_eq_true, if_false, List.cons.injEq, true_and]
    exact ih fun x hx => hl1 x (by simp [hx])

theorem eraseP_append_cons {p : α → Bool} {l1 l2 : List α} {a : α}
    (hl1 : ∀ x ∈ l1, p x = false) (hpa : p a = true) :
    (l1 ++ a :: l2).eraseP p = l1 ++ l2 := by
  induction l1 with
  | nil => simpa using List.eraseP_cons_of_pos (l := l2) hpa
  | cons y ys ih =>
    have hy := hl1 y (by simp)
    rw [List.cons_append, List.eraseP_cons_of_neg (by simp [hy]), List.cons_append]
    rw [ih fun x hx => hl1 x (by simp [hx])]

theorem find?_append_cons_of_none {p : α → Bool} {l1 l2 : List α} {a : α}
    (hl1 : ∀ x ∈ l1, p x = false) (hpa : p a = true) :
    (l1 ++ a :: l2).find? p = some a := by
  induction l1 with
  | nil => simp [List.find?, hpa]
  | cons y ys ih =>
    have hy := hl1 y (by simp)
    simp only [List.cons_append, List.find?, hy]
    exact ih fun x hx => hl1 x (by simp [hx])

theorem modifyFirst_map {p : α → Bool} {f : α → α} {g : α → β} {l : List α}
    (hg : ∀ x, g (f x) = g x) : (modifyFirst p f l).map g = l.map g := by
  induction l with
  | nil => rfl
  | cons y ys ih =>
    by_cases hy : p y = true
    · simp [modifyFirst, hy, hg]
    · simp [modifyFirst, Bool.of_not_eq_true hy, ih]

theorem modifyFirst_of_none {p : α → Bool} {f : α → α} {l : List α}
    (h : ∀ x ∈ l, p x = false) : modifyFirst p f l = l := by
  induction l with
  | nil => rfl
  | cons y ys ih =>
    simp only [modifyFirst, h y (by simp), Bool.false_eq_true, if_false,
      List.cons.injEq, true_and]
    exact ih fun x hx => h x (by simp [hx])

/-- An element of a list that does not satisfy `p` survives `eraseP p`. -/
theorem mem_eraseP_of_not {p : α → Bool} {l : List α} {x : α}
    (hx : x ∈ l) (hpx : p x = false) : x ∈ l.eraseP p := by
  induction l with
  | nil => cases hx
  | cons y ys ih =>
    by_cases hy : p y = true
    · rw [List.eraseP_cons_of_pos hy]
      rcases List.mem_cons.1 hx with rfl | hmem
      · rw [hpx] at hy; cases hy
      · exact hmem
    · rw [List.eraseP_cons_of_neg hy]
      rcases List.mem_cons.1 hx with rfl | hmem
      · exact List.mem_cons_self _ _
      · exact List.mem_cons_of_mem _ (ih hmem)

/-- In a list whose `f`-image has no duplicates, at most one element maps
to any given value, so after erasing the first match nothing matches. -/
theorem find?_eraseP_eq_none {f : α → β} [BEq β] [LawfulBEq β] {l : List α} {k : β}
    (hnd : (l.map f).Nodup) :
    (l.eraseP (fun x => f x == k)).find? (fun x => f x == k) = none := by
  cases hfind : l.find? (fun x => f x == k) with
  | none =>
    rw [List.eraseP_of_forall_not (by
      intro x hx
      have := List.find?_eq_none.1 hfind x hx
      simpa using this)]
    exact hfind
  | some a =>
    obtain ⟨l1, l2, rfl, hl1, hpa⟩ := find?_decomp hfind
    rw [eraseP_append_cons hl1 hpa]
    rw [List.find?_eq_none]
    intro x hx
    simp only [beq_iff_eq] at hpa ⊢
    intro hfx
    have hfa : f a = k := hpa
    rw [List.map_append, List.map_cons] at hnd
    rcases List.mem_append.1 hx with hx1 | hx2
    · have : f x ∈ l1.map f := List.mem_map_of_mem f hx1
      have hdisj := (List.nodup_append.1 hnd).2.2
      exact hdisj this (by simp [hfx, hfa])
    · have hnd2 := (List.nodup_append.1 hnd).2.1
      have : f x ∈ l2.map f := List.mem_map_of_mem f hx2
      rw [List.nodup_cons] at hnd2
      exact hnd2.1 (by rw [← hfx, ← hfa] at *; exact this)

/-! ### Garbage-collection accounting

Every `--max` in `state::gc` coincides with exactly one record removal
(slot, queue entry, or code object), so budget consumed = records removed. -/

theorem eraseScopeSteps_spec (m scope : Nat) (st : List StorageRow) :
    List.Sublist (eraseScopeSteps m scope st).2 st ∧
    st.length + (eraseScopeSteps m scope st).1 =
      (eraseScopeSteps m scope st).2.length + m ∧
    (eraseScopeSteps m scope st).1 ≤ m := by
  induction m generalizing st with
  | zero => exact ⟨List.Sublist.refl st, rfl, Nat.le_refl 0⟩
  | succ n ih =>
    simp only [eraseScopeSteps]
    cases hf : st.find? (fun e : StorageRow => e.scope == scope) with
    | none => exact ⟨List.Sublist.refl st, rfl, Nat.le_refl _⟩
    | some e =>
      obtain ⟨l1, l2, rfl, hl1, hpe⟩ := find?_decomp hf
      have herase := @eraseP_append_cons _ (fun e : StorageRow => e.scope == scope)
        l1 l2 e hl1 hpe
      rw [herase]
      obtain ⟨ih1, ih2, ih3⟩ := ih (l1 ++ l2)
      refine ⟨List.Sublist.trans ih1 ?_, ?_, Nat.le_succ_of_le ih3⟩
      · exact List.Sublist.append (List.Sublist.refl l1) (List.sublist_cons_self e l2)
      · simp only [List.length_append, List.length_cons] at ih2 ⊢
        omega

theorem gcStoreLoop_spec (q : List GcStoreRow) :
    ∀ (max : Nat) (st : List StorageRow),
    List.Sublist (gcStoreLoop max q st).2.2 st ∧
    List.Sublist (gcStoreLoop max q st).2.1 q ∧
    st.length + q.length + (gcStoreLoop max q st).1 =
      (gcStoreLoop max q st).2.2.length + (gcStoreLoop max q st).2.1.length + max ∧
    (gcStoreLoop max q st).1 ≤ max := by
  induction q with
  | nil =>
    intro max st
    exact ⟨List.Sublist.refl st, List.Sublist.refl [], rfl, Nat.le_refl _⟩
  | cons e rest ih =>
    intro max st
    simp only [gcStoreLoop]
    by_cases hmax : max = 0
    · subst hmax
      rw [if_pos rfl]
      exact ⟨List.Sublist.refl st, List.Sublist.refl _, rfl, Nat.le_refl _⟩
    · rw [if_neg hmax]
      obtain ⟨he1, he2, he3⟩ := eraseScopeSteps_spec max e.storage_id st
      by_cases hz : (eraseScopeSteps max e.storage_id st).1 = 0
      · rw [if_pos hz]
        refine ⟨he1, List.Sublist.refl _, ?_, Nat.zero_le _⟩
        simp only [List.length_cons]
        omega
      · rw [if_neg hz]
        obtain ⟨ih1, ih2, ih3, ih4⟩ :=
          ih ((eraseScopeSteps max e.storage_id st).1 - 1) (eraseScopeSteps max e.storage_id st).2
        refine ⟨List.Sublist.trans ih1 he1,
          List.Sublist.trans ih2 (List.sublist_cons_self e rest), ?_, ?_⟩ <;>
          simp only [List.length_cons] at * <;> omega

theorem gcCodeStep_spec (max : Nat) (j : GcCodeRow) (codes : List CodeRow) :
    List.Sublist (gcCodeStep max j codes).2 codes ∧
    codes.length + (gcCodeStep max j codes).1 =
      (gcCodeStep max j codes).2.length + max ∧
    (gcCodeStep max j codes).1 ≤ max := by
  simp only [gcCodeStep]
  cases hf : codes.find? (fun c : CodeRow => c.id == j.code_id) with
  | none => exact ⟨List.Sublist.refl codes, rfl, Nat.le_refl _⟩
  | some c =>
    dsimp only
    by_cases hrc : max ≠ 0 ∧ c.ref_count = 0
    · rw [if_pos hrc]
      obtain ⟨l1, l2, rfl, hl1, hpc⟩ := find?_decomp hf
      have herase := @eraseP_append_cons _ (fun c2 : CodeRow => c2.id == j.code_id)
        l1 l2 c hl1 hpc
      rw [herase]
      refine ⟨List.Sublist.append (List.Sublist.refl l1) (List.sublist_cons_self c l2),
        ?_, Nat.sub_le _ _⟩
      simp only [List.length_append, List.length_cons]
      omega
    · rw [if_neg hrc]
      exact ⟨List.Sublist.refl codes, rfl, Nat.le_refl _⟩

theorem gcCodeLoop_spec (q : List GcCodeRow) :
    ∀ (max : Nat) (codes : List CodeRow),
    List.Sublist (gcCodeLoop max q codes).2.2 codes ∧
    List.Sublist (gcCodeLoop max q codes).2.1 q ∧
    codes.length + q.length + (gcCodeLoop max q codes).1 =
      (gcCodeLoop max q codes).2.2.length + (gcCodeLoop max q codes).2.1.length + max ∧
    (gcCodeLoop max q codes).1 ≤ max := by
  induction q with
  | nil =>
    intro max codes
    exact ⟨List.Sublist.refl codes, List.Sublist.refl [], rfl, Nat.le_refl _⟩
  | cons j rest ih =>
    intro max codes
    simp only [gcCodeLoop]
    by_cases hmax : max = 0
    · subst hmax
      rw [if_pos rfl]
      exact ⟨List.Sublist.refl codes, List.Sublist.refl _, rfl, Nat.le_refl _⟩
    · rw [if_neg hmax]
      obtain ⟨hs1, hs2, hs3⟩ := gcCodeStep_spec max j codes
      by_cases hz : (gcCodeStep max j codes).1 = 0
      · rw [if_pos hz]
        refine ⟨hs1, List.Sublist.refl _, ?_, Nat.zero_le _⟩
        simp only [List.length_cons]
        omega
      · rw [if_neg hz]
        obtain ⟨ih1, ih2, ih3, ih4⟩ := ih ((gcCodeStep max j codes).1 - 1) (gcCodeStep max j codes).2
        refine ⟨List.Sublist.trans ih1 hs1,
          List.Sublist.trans ih2 (List.sublist_cons_self j rest), ?_, ?_⟩ <;>
          simp only [List.length_cons] at * <;> omega

/-- C2: `gc(N)` performs at most `N` primitive units of work (each unit
being one removed record: a storage slot, a GC-queue entry, or a code
object — `gc` only ever removes records, as the sublist conjuncts state,
and every removal consumes one unit of budget), and returns `true` iff
both GC queues are empty when it returns. -/
theorem gc_bounded_budget (N : Nat) (s : State) :
    ((gc N s).1 = true ↔ (gc N s).2.gc_store = [] ∧ (gc N s).2.gc_code = []) ∧
    List.Sublist (gc N s).2.storage s.storage ∧
    List.Sublist (gc N s).2.gc_store s.gc_store ∧
    List.Sublist (gc N s).2.gc_code s.gc_code ∧
    List.Sublist (gc N s).2.codes s.codes ∧
    (gc N s).2.accounts = s.accounts ∧
    s.storage.length + s.gc_store.length + s.gc_code.length + s.codes.length ≤
      (gc N s).2.storage.length + (gc N s).2.gc_store.length +
      (gc N s).2.gc_code.length + (gc N s).2.codes.length + N := by
  obtain ⟨h1, h2, h3, h4⟩ := gcStoreLoop_spec s.gc_store N s.storage
  obtain ⟨g1, g2, g3, g4⟩ := gcCodeLoop_spec s.gc_code (gcStoreLoop N s.gc_store s.storage).1 s.codes
  refine ⟨?_, h1, h2, g2, g1, rfl, ?_⟩
  · simp only [gc, Bool.and_eq_true, List.isEmpty_iff]
  · simp only [gc]
    omega

/-! ### Total pending GC work -/

/-- Number of slot records in one scope. -/
def countScope (scope : Nat) (st : List StorageRow) : Nat :=
  (st.filter (fun e => e.scope == scope)).length

/-- Total budget needed by the storage phase of `gc`: every queued scope
costs its slot count plus one unit for the queue entry itself. -/
def storePending : List GcStoreRow → List StorageRow → Nat
  | [], _ => 0
  | e :: rest, st =>
    countScope e.storage_id st + 1 +
      storePending rest (st.filter (fun x => !(x.scope == e.storage_id)))

def scrubScopes : List GcStoreRow → List StorageRow → List StorageRow
  | [], st => st
  | e :: rest, st => scrubScopes rest (st.filter (fun x => !(x.scope == e.storage_id)))

/-- Budget cost of one code-queue entry's conditional erase. -/
def codeWeight (j : GcCodeRow) (codes : List CodeRow) : Nat :=
  match codes.find? (fun c => c.id == j.code_id) with
  | some c => if c.ref_count = 0 then 1 else 0
  | none => 0

def codeScrub (j : GcCodeRow) (codes : List CodeRow) : List CodeRow :=
  match codes.find? (fun c => c.id == j.code_id) with
  | some c =>
    if c.ref_count = 0 then codes.eraseP (fun c2 : CodeRow => c2.id == j.code_id)
    else codes
  | none => codes

/-- Total budget needed by the code phase of `gc`. -/
def codePending : List GcCodeRow → List CodeRow → Nat
  | [], _ => 0
  | j :: rest, codes => codeWeight j codes + 1 + codePending rest (codeScrub j codes)

def codeScrubAll : List GcCodeRow → List CodeRow → List CodeRow
  | [], codes => codes
  | j :: rest, codes => codeScrubAll rest (codeScrub j codes)

/-- Total pending work of a state, counting every slot deletion,
queue-entry removal and code-object deletion as one unit. -/
def pendingWork (s : State) : Nat :=
  storePending s.gc_store s.storage + codePending s.gc_code s.codes

theorem eraseScopeSteps_drain (m scope : Nat) (st : List StorageRow)
    (h : countScope scope st ≤ m) :
    eraseScopeSteps m scope st =
      (m - countScope scope st, st.filter (fun e => !(e.scope == scope))) := by
  induction m generalizing st with
  | zero =>
    have hc : countScope scope st = 0 := Nat.le_zero.1 h
    have hnil : st.filter (fun e : StorageRow => e.scope == scope) = [] :=
      List.length_eq_zero.1 hc
    have : st.filter (fun e : StorageRow => !(e.scope == scope)) = st := by
      rw [List.filter_eq_self]
      intro a ha
      have := List.filter_eq_nil_iff.1 hnil a ha
      simpa using this
    simp [eraseScopeSteps, this, hc]
  | succ n ih =>
    simp only [eraseScopeSteps]
    cases hf : st.find? (fun e : StorageRow => e.scope == scope) with
    | none =>
      have hall : ∀ x ∈ st, (x.scope == scope) = false := by
        intro x hx
        have := List.find?_eq_none.1 hf x hx
        simpa using this
      have hc : countScope scope st = 0 := by
        simp only [countScope, List.length_eq_zero, List.filter_eq_nil_iff]
        intro a ha
        simp [hall a ha]
      have hfs : st.filter (fun e : StorageRow => !(e.scope == scope)) = st := by
        rw [List.filter_eq_self]
        intro a ha
        simp [hall a ha]
      dsimp only
      rw [hc, hfs]
      simp
    | some e =>
      obtain ⟨l1, l2, rfl, hl1, hpe⟩ := find?_decomp hf
      have herase := @eraseP_append_cons _ (fun e : StorageRow => e.scope == scope)
        l1 l2 e hl1 hpe
      rw [herase]
      have hcnt : countScope scope (l1 ++ e :: l2) = countScope scope (l1 ++ l2) + 1 := by
        simp only [countScope, List.filter_append, List.filter_cons, hpe, if_true,
          List.length_append, List.length_cons]
        omega
      have hle : countScope scope (l1 ++ l2) ≤ n := by omega
      rw [ih (l1 ++ l2) hle]
      have hfeq : (l1 ++ e :: l2).filter (fun x : StorageRow => !(x.scope == scope)) =
          (l1 ++ l2).filter (fun x : StorageRow => !(x.scope == scope)) := by
        simp [List.filter_append, List.filter_cons, hpe]
      rw [hfeq, hcnt]
      have harith : n + 1 - (countScope scope (l1 ++ l2) + 1) =
          n - countScope scope (l1 ++ l2) := by omega
      rw [harith]

theorem gcStoreLoop_drain (q : List GcStoreRow) :
    ∀ (max : Nat) (st : List StorageRow), storePending q st ≤ max →
    gcStoreLoop max q st = (max - storePending q st, [], scrubScopes q st) := by
  induction q with
  | nil =>
    intro max st _
    simp [gcStoreLoop, storePending, scrubScopes]
  | cons e rest ih =>
    intro max st h
    simp only [storePending] at h
    have hmax : max ≠ 0 := by omega
    have hcnt : countScope e.storage_id st ≤ max := by omega
    simp only [gcStoreLoop]
    rw [if_neg hmax, eraseScopeSteps_drain max e.storage_id st hcnt]
    have hz : max - countScope e.storage_id st ≠ 0 := by omega
    rw [if_neg hz]
    rw [ih (max - countScope e.storage_id st - 1)
      (st.filter (fun x => !(x.scope == e.storage_id))) (by omega)]
    simp only [scrubScopes, storePending]
    congr 1
    omega

theorem gcCodeStep_eq (max : Nat) (j : GcCodeRow) (codes : List CodeRow)
    (hmax : max ≠ 0) :
    gcCodeStep max j codes = (max - codeWeight j codes, codeScrub j codes) := by
  simp only [gcCodeStep, codeWeight, codeScrub]
  cases hf : codes.find? (fun c : CodeRow => c.id == j.code_id) with
  | none => simp
  | some c =>
    dsimp only
    by_cases hrc : c.ref_count = 0
    · rw [if_pos ⟨hmax, hrc⟩, if_pos hrc, if_pos hrc]
    · rw [if_neg (by simp [hrc]), if_neg hrc, if_neg hrc]
      simp

theorem gcCodeLoop_drain (q : List GcCodeRow) :
    ∀ (max : Nat) (codes : List CodeRow), codePending q codes ≤ max →
    gcCodeLoop max q codes = (max - codePending q codes, [], codeScrubAll q codes) := by
  induction q with
  | nil =>
    intro max codes _
    simp [gcCodeLoop, codePending, codeScrubAll]
  | cons j rest ih =>
    intro max codes h
    simp only [codePending] at h
    have hmax : max ≠ 0 := by omega
    simp only [gcCodeLoop]
    rw [if_neg hmax, gcCodeStep_eq max j codes hmax]
    have hw : codeWeight j codes ≤ 1 := by
      simp only [codeWeight]
      cases codes.find? (fun c : CodeRow => c.id == j.code_id) with
      | none => simp
      | some c => dsimp only; split <;> simp
    have hz : max - codeWeight j codes ≠ 0 := by omega
    rw [if_neg hz]
    rw [ih (max - codeWeight j codes - 1) (codeScrub j codes) (by omega)]
    simp only [codeScrubAll, codePending]
    congr 1
    omega

/-- An empty-queue `gc` call is a no-op returning `true`. -/
theorem gc_of_empty_queues (M : Nat) (s : State)
    (h1 : s.gc_store = []) (h2 : s.gc_code = []) : gc M s = (true, s) := by
  simp only [gc, h1, h2, gcStoreLoop, gcCodeLoop, List.isEmpty_nil, Bool.and_self]
  rw [← h1, ← h2]

/-- The `gc 0` does no work. -/
theorem gc_zero (s : State) :
    gc 0 s = ((s.gc_store.isEmpty && s.gc_code.isEmpty), s) := by
  have hs : gcStoreLoop 0 s.gc_store s.storage = (0, s.gc_store, s.storage) := by
    cases h : s.gc_store with
    | nil => simp [gcStoreLoop]
    | cons e rest => simp [gcStoreLoop]
  have hc : gcCodeLoop 0 s.gc_code s.codes = (0, s.gc_code, s.codes) := by
    cases h : s.gc_code with
    | nil => simp [gcCodeLoop]
    | cons j rest => simp [gcCodeLoop]
  simp only [gc, hs, hc]

/-- C4: with a budget at least the total pending work (counting every
slot deletion, queue-entry removal, and code-object deletion as one
unit), `gc` empties both queues and returns `true`; any subsequent call
on the resulting state returns `true` with zero further side effects;
and `gc 0` is a pure no-op returning `true` iff both queues are already
empty. -/
theorem gc_drain_idempotent (N : Nat) (s : State) (h : pendingWork s ≤ N) :
    (gc N s).1 = true ∧
    (gc N s).2.gc_store = [] ∧
    (gc N s).2.gc_code = [] ∧
    (∀ M, gc M (gc N s).2 = (true, (gc N s).2)) ∧
    (∀ s2 : State, gc 0 s2 = ((s2.gc_store.isEmpty && s2.gc_code.isEmpty), s2)) := by
  have hsp : storePending s.gc_store s.storage ≤ N := by
    simp only [pendingWork] at h; omega
  have hstore := gcStoreLoop_drain s.gc_store N s.storage hsp
  have hcp : codePending s.gc_code s.codes ≤ N - storePending s.gc_store s.storage := by
    simp only [pendingWork] at h; omega
  have hcode := gcCodeLoop_drain s.gc_code (N - storePending s.gc_store s.storage) s.codes hcp
  have hgc : gc N s = (true,
      { s with storage := scrubScopes s.gc_store s.storage,
               gc_store := [], gc_code := [],
               codes := codeScrubAll s.gc_code s.codes }) := by
    simp only [gc, hstore, hcode, List.isEmpty_nil, Bool.and_self]
  refine ⟨by rw [hgc], by rw [hgc], by rw [hgc], ?_, fun s2 => gc_zero s2⟩
  intro M
  exact gc_of_empty_queues M _ (by rw [hgc]) (by rw [hgc])

/-- Concrete state with five units of pending GC work: two stale slots
under scope 0, one storage-queue entry, one code-queue entry and one
dead code object. -/
def gcExampleState : State :=
  ⟨[], [⟨0, 0, 0, 4⟩, ⟨0, 1, 1, 5⟩], [⟨0, 99, [1], 0⟩], [⟨0, 0⟩], [⟨0, 0⟩]⟩

/-- Witness for `gc_drain_idempotent`: a budget of 5 drains
`gcExampleState` completely. -/
theorem gc_drain_idempotent_witness :
    pendingWork gcExampleState ≤ 5 ∧
    (gc 5 gcExampleState).1 = true ∧
    (gc 5 gcExampleState).2.gc_store = [] ∧
    (gc 5 gcExampleState).2.gc_code = [] :=
  ⟨by decide, (gc_drain_idempotent 5 gcExampleState (by decide)).1,
   (gc_drain_idempotent 5 gcExampleState (by decide)).2.1,
   (gc_drain_idempotent 5 gcExampleState (by decide)).2.2.1⟩

/-! ### Closed forms of `update_account`'s deletion path -/

theorem update_account_delete_nocode (s : State) (addr : Nat) (init : Account)
    (r : AccountRow) (hfind : findAccount s addr = some r)
    (hch : r.code_hash = none) :
    update_account addr (some init) none s =
      { s with accounts := s.accounts.eraseP (fun a => a.eth_address == addr),
               gc_store := s.gc_store ++
                 [⟨nextId (s.gc_store.map (fun g => g.id)), r.id⟩] } := by
  have hne : ¬((none : Option Account) = some init) := by simp
  simp only [update_account, if_neg hne, hfind, hch]

theorem update_account_delete_codemissing (s : State) (addr : Nat) (init : Account)
    (r : AccountRow) (h : Nat) (hfind : findAccount s addr = some r)
    (hch : r.code_hash = some h) (hfc : findCode s h = none) :
    update_account addr (some init) none s =
      { s with accounts := s.accounts.eraseP (fun a => a.eth_address == addr),
               gc_store := s.gc_store ++
                 [⟨nextId (s.gc_store.map (fun g => g.id)), r.id⟩] } := by
  have hne : ¬((none : Option Account) = some init) := by simp
  have hfc1 : findCode { s with gc_store := s.gc_store ++
      [⟨nextId (s.gc_store.map (fun g => g.id)), r.id⟩] } h = none := hfc
  simp only [update_account, if_neg hne, hfind, hch, hfc1]

theorem update_account_delete_code (s : State) (addr : Nat) (init : Account)
    (r : AccountRow) (h : Nat) (c : CodeRow) (hfind : findAccount s addr = some r)
    (hch : r.code_hash = some h) (hfc : findCode s h = some c) :
    update_account addr (some init) none s =
      { s with accounts := s.accounts.eraseP (fun a => a.eth_address == addr),
               gc_store := s.gc_store ++
                 [⟨nextId (s.gc_store.map (fun g => g.id)), r.id⟩],
               gc_code := if c.ref_count ≤ 1 then s.gc_code ++
                 [⟨nextId (s.gc_code.map (fun g => g.id)), c.id⟩] else s.gc_code,
               codes := modifyFirst (fun c2 => c2.code_hash == h)
                 (fun row => { row with ref_count :=
                    if row.ref_count > 0 then row.ref_count - 1 else row.ref_count })
                 s.codes } := by
  have hne : ¬((none : Option Account) = some init) := by simp
  have hfc1 : findCode { s with gc_store := s.gc_store ++
      [⟨nextId (s.gc_store.map (fun g => g.id)), r.id⟩] } h = some c := hfc
  simp only [update_account, if_neg hne, hfind, hch, hfc1]
  by_cases hrc : c.ref_count ≤ 1
  · simp only [if_pos hrc]
  · simp only [if_neg hrc]

/-- After decrementing the found code row, `find?` by the same hash
returns it with the decremented count. -/
theorem find?_decrement (codes : List CodeRow) (h : Nat) (c : CodeRow)
    (hfc : codes.find? (fun c2 => c2.code_hash == h) = some c)
    (hrc : 1 ≤ c.ref_count) :
    (modifyFirst (fun c2 : CodeRow => c2.code_hash == h)
        (fun row => { row with ref_count :=
          if row.ref_count > 0 then row.ref_count - 1 else row.ref_count })
        codes).find? (fun c2 : CodeRow => c2.code_hash == h) =
      some { c with ref_count := c.ref_count - 1 } := by
  obtain ⟨l1, l2, rfl, hl1, hpc⟩ := find?_decomp hfc
  rw [modifyFirst_append_cons hl1 hpc,
    find?_append_cons_of_none hl1 (by simpa using hpc)]
  have hpos : c.ref_count > 0 := by omega
  simp [hpos]

/-- C3: deleting an existing account (`update_account` with a present
`initial` and absent `current`) erases the account record immediately,
appends exactly one storage-GC entry carrying the account's id, leaves
every storage-slot record untouched, and when the account carried a code
hash whose object exists with positive ref_count, decrements that
object's ref_count, additionally enqueuing a code-GC entry exactly when
the count was 1. -/
theorem delete_account_deferred (s : State) (addr : Nat) (init : Account)
    (r : AccountRow)
    (hnd : (s.accounts.map (fun a => a.eth_address)).Nodup)
    (hfind : findAccount s addr = some r) :
    (update_account addr (some init) none s).accounts.find?
        (fun a => a.eth_address == addr) = none ∧
    (update_account addr (some init) none s).gc_store =
      s.gc_store ++ [⟨nextId (s.gc_store.map (fun g => g.id)), r.id⟩] ∧
    (update_account addr (some init) none s).storage = s.storage ∧
    (∀ h c, r.code_hash = some h → findCode s h = some c → 1 ≤ c.ref_count →
      (update_account addr (some init) none s).codes.find?
          (fun c2 => c2.code_hash == h) = some { c with ref_count := c.ref_count - 1 } ∧
      (c.ref_count = 1 →
        (update_account addr (some init) none s).gc_code =
          s.gc_code ++ [⟨nextId (s.gc_code.map (fun g => g.id)), c.id⟩]) ∧
      (1 < c.ref_count →
        (update_account addr (some init) none s).gc_code = s.gc_code)) := by
  have herased : (update_account addr (some init) none s).accounts =
      s.accounts.eraseP (fun a => a.eth_address == addr) := by
    cases hch : r.code_hash with
    | none => rw [update_account_delete_nocode s addr init r hfind hch]
    | some h =>
      cases hfc : findCode s h with
      | none => rw [update_account_delete_codemissing s addr init r h hfind hch hfc]
      | some c => rw [update_account_delete_code s addr init r h c hfind hch hfc]
  refine ⟨?_, ?_, ?_, ?_⟩
  · rw [herased]
    exact find?_eraseP_eq_none (f := fun a : AccountRow => a.eth_address) (k := addr) hnd
  · cases hch : r.code_hash with
    | none => rw [update_account_delete_nocode s addr init r hfind hch]
    | some h =>
      cases hfc : findCode s h with
      | none => rw [update_account_delete_codemissing s addr init r h hfind hch hfc]
      | some c => rw [update_account_delete_code s addr init r h c hfind hch hfc]
  · cases hch : r.code_hash with
    | none => rw [update_account_delete_nocode s addr init r hfind hch]
    | some h =>
      cases hfc : findCode s h with
      | none => rw [update_account_delete_codemissing s addr init r h hfind hch hfc]
      | some c => rw [update_account_delete_code s addr init r h c hfind hch hfc]
  · intro h c hch hfc hrc
    rw [update_account_delete_code s addr init r h c hfind hch hfc]
    refine ⟨find?_decrement s.codes h c hfc hrc, ?_, ?_⟩
    · intro h1
      simp only [h1]
      rw [if_pos (by omega)]
    · intro h1
      rw [if_neg (by omega)]

/-- Concrete state for the deletion witness: address 7 holds code hash 99
whose object has ref_count 1, and one storage slot exists under scope 0. -/
def deleteExampleState : State :=
  ⟨[⟨0, 7, 1, 5, some 99⟩], [⟨0, 0, 3, 4⟩], [⟨0, 99, [1], 1⟩], [], []⟩

/-- Witness for `delete_account_deferred` at `deleteExampleState`. -/
theorem delete_account_deferred_witness :
    (deleteExampleState.accounts.map (fun a => a.eth_address)).Nodup ∧
    findAccount deleteExampleState 7 = some ⟨0, 7, 1, 5, some 99⟩ ∧
    (update_account 7 (some ⟨1, 5, 99, 0⟩) none deleteExampleState).accounts.find?
      (fun a => a.eth_address == 7) = none ∧
    (update_account 7 (some ⟨1, 5, 99, 0⟩) none deleteExampleState).storage =
      deleteExampleState.storage :=
  ⟨by decide, by decide,
   (delete_account_deferred deleteExampleState 7 ⟨1, 5, 99, 0⟩ ⟨0, 7, 1, 5, some 99⟩
     (by decide) (by decide)).1,
   (delete_account_deferred deleteExampleState 7 ⟨1, 5, 99, 0⟩ ⟨0, 7, 1, 5, some 99⟩
     (by decide) (by decide)).2.2.1⟩

/-- Modifying the first `p`-match leaves it the first `p`-match when `f`
preserves `p`. -/
theorem find?_modifyFirst {p : α → Bool} {f : α → α} {l : List α} {a : α}
    (hf : l.find? p = some a) (hpf : p (f a) = true) :
    (modifyFirst p f l).find? p = some (f a) := by
  obtain ⟨l1, l2, rfl, hl1, hpa⟩ := find?_decomp hf
  rw [modifyFirst_append_cons hl1 hpa, find?_append_cons_of_none hl1 hpf]

/-- C10: in `update_account`'s deletion path the code object's `uint32_t`
ref_count is decremented only under a strictly-positive guard, so the
decrement never wraps: the new count never exceeds the old one (in
particular a count below `2^32 - 1` can never become `2^32 - 1`), and
when the count is already 0 it is left at 0 while a code-GC entry is
still enqueued (the `ref_count <= 1` test covers 0). -/
theorem refcount_no_underflow (s : State) (addr : Nat) (init : Account)
    (r : AccountRow) (h : Nat) (c : CodeRow)
    (hfind : findAccount s addr = some r)
    (hch : r.code_hash = some h)
    (hfc : findCode s h = some c) :
    (update_account addr (some init) none s).codes.find?
        (fun x => x.code_hash == h) =
      some { c with ref_count :=
        if c.ref_count > 0 then c.ref_count - 1 else c.ref_count } ∧
    (if c.ref_count > 0 then c.ref_count - 1 else c.ref_count) ≤ c.ref_count ∧
    (c.ref_count < 2 ^ 32 - 1 →
      (if c.ref_count > 0 then c.ref_count - 1 else c.ref_count) ≠ 2 ^ 32 - 1) ∧
    (c.ref_count = 0 →
      (if c.ref_count > 0 then c.ref_count - 1 else c.ref_count) = 0 ∧
      (update_account addr (some init) none s).gc_code =
        s.gc_code ++ [⟨nextId (s.gc_code.map (fun g => g.id)), c.id⟩]) := by
  rw [update_account_delete_code s addr init r h c hfind hch hfc]
  refine ⟨?_, by split <;> omega, by split <;> omega, ?_⟩
  · exact find?_modifyFirst hfc (by simpa using List.find?_some hfc)
  · intro h0
    refine ⟨by simp [h0], ?_⟩
    rw [if_pos (by omega)]

/-- Concrete state for the no-underflow witness: the referenced code
object already has ref_count 0. -/
def underflowExampleState : State :=
  ⟨[⟨0, 7, 0, 0, some 99⟩], [], [⟨0, 99, [1], 0⟩], [], []⟩

/-- Witness for `refcount_no_underflow` at a ref_count of 0: the count
stays 0 (it does not wrap to `2^32 - 1`) and a GC entry is enqueued. -/
theorem refcount_no_underflow_witness :
    findAccount underflowExampleState 7 = some ⟨0, 7, 0, 0, some 99⟩ ∧
    findCode underflowExampleState 99 = some ⟨0, 99, [1], 0⟩ ∧
    (if (0 : Nat) > 0 then 0 - 1 else 0) = 0 ∧
    (update_account 7 (some ⟨0, 0, 99, 0⟩) none underflowExampleState).gc_code =
      underflowExampleState.gc_code ++ [⟨0, 0⟩] :=
  ⟨by decide, by decide,
   ((refcount_no_underflow underflowExampleState 7 ⟨0, 0, 99, 0⟩ ⟨0, 7, 0, 0, some 99⟩
      99 ⟨0, 99, [1], 0⟩ (by decide) (by decide) (by decide)).2.2.2 rfl).1,
   ((refcount_no_underflow underflowExampleState 7 ⟨0, 0, 99, 0⟩ ⟨0, 7, 0, 0, some 99⟩
      99 ⟨0, 99, [1], 0⟩ (by decide) (by decide) (by decide)).2.2.2 rfl).2⟩

/-- Replacing the code table does not affect account lookup. -/
theorem findAccount_codes (s : State) (cs : List CodeRow) (addr : Nat) :
    findAccount { s with codes := cs } addr = findAccount s addr := rfl

/-- Closed form of `update_account_code`. -/
theorem update_account_code_eq (addr inc h : Nat) (code : List Nat) (s : State) :
    update_account_code addr inc h code s =
      { s with
        codes :=
          match findCode s h with
          | none => s.codes ++ [⟨nextId (s.codes.map (fun c => c.id)), h, code, 1⟩]
          | some _ => modifyFirst (fun c => c.code_hash == h)
              (fun row => { row with ref_count := (row.ref_count + 1) % 2 ^ 32 }) s.codes,
        accounts :=
          match findAccount s addr with
          | some _ => modifyFirst (fun r => r.eth_address == addr)
              (fun row => { row with code_hash := some h }) s.accounts
          | none => s.accounts ++
              [⟨nextId (s.accounts.map (fun r => r.id)), addr, 0, 0, some h⟩] } := by
  simp only [update_account_code]
  cases hfc : findCode s h <;> cases hfa : findAccount s addr <;>
    simp only [hfc, findAccount_codes, hfa] <;> rfl

/-- C6: `update_account_code` deduplicates by content hash: a fresh hash
creates exactly one object with ref_count 1 storing the bytes verbatim;
an existing hash only has its `uint32_t` ref_count incremented, its id,
hash and stored bytes never being overwritten; in every case the
account's `code_hash` is set to the hash, the account row being created
with nonce 0 when absent; and concretely, two accounts given the same
hash share one object with ref_count 2, `read_code` returning the same
bytes for both. -/
theorem code_store_dedup (s : State) (addr inc h : Nat) (code : List Nat) :
    (findCode s h = none →
      (update_account_code addr inc h code s).codes =
        s.codes ++ [⟨nextId (s.codes.map (fun c => c.id)), h, code, 1⟩]) ∧
    (∀ c, findCode s h = some c →
      (update_account_code addr inc h code s).codes.map
          (fun x => (x.id, x.code_hash, x.code)) =
        s.codes.map (fun x => (x.id, x.code_hash, x.code)) ∧
      (update_account_code addr inc h code s).codes.find?
          (fun x => x.code_hash == h) =
        some { c with ref_count := (c.ref_count + 1) % 2 ^ 32 }) ∧
    (findAccount s addr = none →
      (update_account_code addr inc h code s).accounts =
        s.accounts ++
          [⟨nextId (s.accounts.map (fun r => r.id)), addr, 0, 0, some h⟩]) ∧
    (∀ rA, findAccount s addr = some rA →
      (update_account_code addr inc h code s).accounts.find?
          (fun a => a.eth_address == addr) = some { rA with code_hash := some h }) ∧
    ((update_account_code 8 0 99 [96, 1, 96, 0]
        (update_account_code 7 0 99 [96, 1, 96, 0] emptyState)).codes =
      [⟨0, 99, [96, 1, 96, 0], 2⟩] ∧
     (read_code (update_account_code 8 0 99 [96, 1, 96, 0]
        (update_account_code 7 0 99 [96, 1, 96, 0] emptyState)) emptyCaches 99).1 =
      [96, 1, 96, 0] ∧
     findAccount (update_account_code 8 0 99 [96, 1, 96, 0]
        (update_account_code 7 0 99 [96, 1, 96, 0] emptyState)) 7 =
      some ⟨0, 7, 0, 0, some 99⟩ ∧
     findAccount (update_account_code 8 0 99 [96, 1, 96, 0]
        (update_account_code 7 0 99 [96, 1, 96, 0] emptyState)) 8 =
      some ⟨1, 8, 0, 0, some 99⟩) := by
  rw [update_account_code_eq]
  refine ⟨?_, ?_, ?_, ?_, by decide, by decide, by decide, by decide⟩
  · intro hfc
    simp only [hfc]
  · intro c hfc
    simp only [hfc]
    constructor
    · exact modifyFirst_map (fun x => rfl)
    · exact find?_modifyFirst hfc (by simpa using List.find?_some hfc)
  · intro hfa
    simp only [hfa]
  · intro rA hfa
    simp only [hfa]
    exact find?_modifyFirst hfa (by simpa using List.find?_some hfa)

/-- Witness for `code_store_dedup`: installing fresh code into the empty
state creates one object with ref_count 1. -/
theorem code_store_dedup_witness :
    findCode emptyState 99 = none ∧
    (update_account_code 7 0 99 [1, 2] emptyState).codes =
      emptyState.codes ++
        [⟨nextId (emptyState.codes.map (fun c => c.id)), 99, [1, 2], 1⟩] :=
  ⟨by decide, (code_store_dedup emptyState 7 0 99 [1, 2]).1 (by decide)⟩

/-! ### Closed forms of the remaining reconciliation paths -/

theorem update_account_noop (addr : Nat) (i c : Option Account) (s : State)
    (heq : c = i) : update_account addr i c s = s := by
  simp [update_account, heq]

theorem update_account_create_eq (s : State) (addr : Nat) (i : Option Account)
    (cur : Account) (hne : ¬(some cur = i)) (hfa : findAccount s addr = none) :
    update_account addr i (some cur) s =
      { s with accounts := s.accounts ++
          [⟨nextId (s.accounts.map (fun r => r.id)), addr, cur.nonce, cur.balance,
            normalizeHash cur.code_hash⟩] } := by
  simp only [update_account, if_neg hne, hfa]

theorem update_account_modify_eq (s : State) (addr : Nat) (i : Option Account)
    (cur : Account) (r : AccountRow) (hne : ¬(some cur = i))
    (hfa : findAccount s addr = some r) :
    update_account addr i (some cur) s =
      { s with accounts := modifyFirst (fun a => a.eth_address == addr)
                             (fun a =>
                               { a with
                                   nonce := cur.nonce,
                                   code_hash := normalizeHash cur.code_hash,
                                   balance := cur.balance }) s.accounts } := by
  simp only [update_account, if_neg hne, hfa]

theorem update_storage_zero_noacct (addr inc loc init : Nat) (s : State)
    (hfa : findAccount s addr = none) :
    update_storage addr inc loc init 0 s = s := by
  simp only [update_storage, if_true, hfa]

theorem update_storage_zero_noslot (addr inc loc init : Nat) (s : State)
    (r : AccountRow) (hfa : findAccount s addr = some r)
    (hsl : findSlot s.storage r.id loc = none) :
    update_storage addr inc loc init 0 s = s := by
  simp only [update_storage, if_true, hfa, hsl]

theorem update_storage_zero_erase (addr inc loc init : Nat) (s : State)
    (r : AccountRow) (e0 : StorageRow) (hfa : findAccount s addr = some r)
    (hsl : findSlot s.storage r.id loc = some e0) :
    update_storage addr inc loc init 0 s =
      { s with storage :=
          s.storage.eraseP (fun x => x.scope == r.id && x.key == loc) } := by
  simp only [update_storage, if_true, hfa, hsl]

theorem update_storage_nz_acct_new (addr inc loc init cur : Nat) (s : State)
    (r : AccountRow) (hcur : ¬(cur = 0)) (hfa : findAccount s addr = some r)
    (hsl : findSlot s.storage r.id loc = none) :
    update_storage addr inc loc init cur s =
      { s with storage := s.storage ++
          [⟨r.id, nextId ((s.storage.filter (fun x => x.scope == r.id)).map
              (fun x => x.id)), loc, cur⟩] } := by
  simp only [update_storage, if_neg hcur, hfa, hsl]

theorem update_storage_nz_acct_mod (addr inc loc init cur : Nat) (s : State)
    (r : AccountRow) (e0 : StorageRow) (hcur : ¬(cur = 0))
    (hfa : findAccount s addr = some r)
    (hsl : findSlot s.storage r.id loc = some e0) :
    update_storage addr inc loc init cur s =
      { s with storage := modifyFirst (fun x => x.scope == r.id && x.key == loc)
                            (fun x => { x with value := cur }) s.storage } := by
  simp only [update_storage, if_neg hcur, hfa, hsl]

theorem update_storage_nz_noacct_new (addr inc loc init cur : Nat) (s : State)
    (hcur : ¬(cur = 0)) (hfa : findAccount s addr = none)
    (hsl : findSlot s.storage (nextId (s.accounts.map (fun r => r.id))) loc = none) :
    update_storage addr inc loc init cur s =
      { s with
        accounts := s.accounts ++
          [⟨nextId (s.accounts.map (fun r => r.id)), addr, 0, 0, some kEmptyHash⟩],
        storage := s.storage ++
          [⟨nextId (s.accounts.map (fun r => r.id)),
            nextId ((s.storage.filter
              (fun x => x.scope == nextId (s.accounts.map (fun r => r.id)))).map
              (fun x => x.id)), loc, cur⟩] } := by
  simp only [update_storage, if_neg hcur, hfa, hsl]

theorem update_storage_nz_noacct_mod (addr inc loc init cur : Nat) (s : State)
    (e0 : StorageRow) (hcur : ¬(cur = 0)) (hfa : findAccount s addr = none)
    (hsl : findSlot s.storage (nextId (s.accounts.map (fun r => r.id))) loc = some e0) :
    update_storage addr inc loc init cur s =
      { s with
        accounts := s.accounts ++
          [⟨nextId (s.accounts.map (fun r => r.id)), addr, 0, 0, some kEmptyHash⟩],
        storage := modifyFirst
          (fun x => x.scope == nextId (s.accounts.map (fun r => r.id)) && x.key == loc)
          (fun x => { x with value := cur }) s.storage } := by
  simp only [update_storage, if_neg hcur, hfa, hsl]

/-- No path of `update_account` touches the storage table. -/
theorem update_account_storage_eq (addr : Nat) (i c : Option Account) (s : State) :
    (update_account addr i c s).storage = s.storage := by
  by_cases heq : c = i
  · rw [update_account_noop addr i c s heq]
  · cases c with
    | some cur =>
      cases hfa : findAccount s addr with
      | none => rw [update_account_create_eq s addr i cur heq hfa]
      | some r => rw [update_account_modify_eq s addr i cur r heq hfa]
    | none =>
      cases i with
      | none => exact absurd rfl heq
      | some init =>
        cases hfa : findAccount s addr with
        | none => simp only [update_account, if_neg heq, hfa]
        | some r =>
          cases hch : r.code_hash with
          | none => rw [update_account_delete_nocode s addr init r hfa hch]
          | some h =>
            cases hfc : findCode s h with
            | none => rw [update_account_delete_codemissing s addr init r h hfa hch hfc]
            | some cc => rw [update_account_delete_code s addr init r h cc hfa hch hfc]

/-- The `update_account_code` touches only the code and account tables. -/
theorem update_account_code_storage_eq (addr inc h : Nat) (code : List Nat) (s : State) :
    (update_account_code addr inc h code s).storage = s.storage := by
  rw [update_account_code_eq]

/-! ### Zero-slot sparsity -/

theorem mem_modifyFirst {p : α → Bool} {f : α → α} {l : List α} {x : α}
    (hx : x ∈ modifyFirst p f l) : x ∈ l ∨ ∃ y ∈ l, x = f y := by
  induction l with
  | nil => cases hx
  | cons y ys ih =>
    simp only [modifyFirst] at hx
    by_cases hy : p y = true
    · rw [if_pos hy] at hx
      rcases List.mem_cons.1 hx with rfl | hmem
      · exact Or.inr ⟨y, List.mem_cons_self y ys, rfl⟩
      · exact Or.inl (List.mem_cons_of_mem _ hmem)
    · rw [if_neg hy] at hx
      rcases List.mem_cons.1 hx with rfl | hmem
      · exact Or.inl (List.mem_cons_self _ _)
      · rcases ih hmem with h1 | ⟨z, hz, rfl⟩
        · exact Or.inl (List.mem_cons_of_mem _ h1)
        · exact Or.inr ⟨z, List.mem_cons_of_mem _ hz, rfl⟩

/-- No storage record ever carries the zero value. -/
def noZeroSlots (s : State) : Prop := ∀ e ∈ s.storage, e.value ≠ 0

theorem noZeroSlots_update_storage (addr inc loc init cur : Nat) (s : State)
    (hs : noZeroSlots s) : noZeroSlots (update_storage addr inc loc init cur s) := by
  by_cases hcur : cur = 0
  · subst hcur
    cases hfa : findAccount s addr with
    | none => rw [update_storage_zero_noacct addr inc loc init s hfa]; exact hs
    | some r =>
      cases hsl : findSlot s.storage r.id loc with
      | none => rw [update_storage_zero_noslot addr inc loc init s r hfa hsl]; exact hs
      | some e0 =>
        rw [update_storage_zero_erase addr inc loc init s r e0 hfa hsl]
        intro e he
        exact hs e ((List.eraseP_sublist s.storage).subset he)
  · cases hfa : findAccount s addr with
    | some r =>
      cases hsl : findSlot s.storage r.id loc with
      | none =>
        rw [update_storage_nz_acct_new addr inc loc init cur s r hcur hfa hsl]
        intro e he
        rcases List.mem_append.1 he with h1 | h2
        · exact hs e h1
        · rw [List.mem_singleton.1 h2]; exact hcur
      | some e0 =>
        rw [update_storage_nz_acct_mod addr inc loc init cur s r e0 hcur hfa hsl]
        intro e he
        rcases mem_modifyFirst he with h1 | ⟨y, _, rfl⟩
        · exact hs e h1
        · exact hcur
    | none =>
      cases hsl : findSlot s.storage (nextId (s.accounts.map (fun r => r.id))) loc with
      | none =>
        rw [update_storage_nz_noacct_new addr inc loc init cur s hcur hfa hsl]
        intro e he
        rcases List.mem_append.1 he with h1 | h2
        · exact hs e h1
        · rw [List.mem_singleton.1 h2]; exact hcur
      | some e0 =>
        rw [update_storage_nz_noacct_mod addr inc loc init cur s e0 hcur hfa hsl]
        intro e he
        rcases mem_modifyFirst he with h1 | ⟨y, _, rfl⟩
        · exact hs e h1
        · exact hcur

theorem gc_storage_sublist (m : Nat) (s : State) :
    List.Sublist (gc m s).2.storage s.storage :=
  (gcStoreLoop_spec s.gc_store m s.storage).1

theorem noZeroSlots_exec (op : Op) (s : State) (hs : noZeroSlots s) :
    noZeroSlots (exec op s) := by
  cases op with
  | updAccount a i c =>
    intro e he
    rw [show (exec (Op.updAccount a i c) s).storage = s.storage from
      update_account_storage_eq a i c s] at he
    exact hs e he
  | updAccountCode a inc h code =>
    intro e he
    rw [show (exec (Op.updAccountCode a inc h code) s).storage = s.storage from
      update_account_code_storage_eq a inc h code s] at he
    exact hs e he
  | updStorage a inc loc i c => exact noZeroSlots_update_storage a inc loc i c s hs
  | runGc m =>
    intro e he
    exact hs e ((gc_storage_sublist m s).subset he)
  | beginBlock n => exact hs

theorem noZeroSlots_execList (ops : List Op) :
    ∀ s : State, noZeroSlots s → noZeroSlots (execList ops s) := by
  induction ops with
  | nil => intro s hs; exact hs
  | cons op rest ih => intro s hs; exact ih (exec op s) (noZeroSlots_exec op s hs)

/-- C5: zero-slot sparsity.  In every state reachable from the empty
state, a stored slot record always has a nonzero value (so a record for
key K exists iff K's value is nonzero — an absent record reads as zero
by definition of `read_storage`); `update_storage` with zero `current`
deletes the slot if present and is a no-op when the slot or the account
does not exist, while a nonzero `current` creates or overwrites the slot
record with that value. -/
theorem zero_slot_sparsity :
    (∀ ops : List Op, noZeroSlots (execList ops emptyState)) ∧
    (∀ s addr inc loc init, findAccount s addr = none →
      update_storage addr inc loc init 0 s = s) ∧
    (∀ s addr inc loc init r, findAccount s addr = some r →
      findSlot s.storage r.id loc = none →
      update_storage addr inc loc init 0 s = s) ∧
    (∀ s addr inc loc init r e0, findAccount s addr = some r →
      findSlot s.storage r.id loc = some e0 →
      (update_storage addr inc loc init 0 s).storage =
        s.storage.eraseP (fun x => x.scope == r.id && x.key == loc)) ∧
    (∀ s addr inc loc init cur r, cur ≠ 0 → findAccount s addr = some r →
      ∃ e2, findSlot (update_storage addr inc loc init cur s).storage r.id loc =
          some e2 ∧ e2.key = loc ∧ e2.value = cur) ∧
    (∀ s addr inc loc init cur, cur ≠ 0 → findAccount s addr = none →
      ∃ e2, findSlot (update_storage addr inc loc init cur s).storage
          (nextId (s.accounts.map (fun r => r.id))) loc = some e2 ∧
        e2.key = loc ∧ e2.value = cur) := by
  refine ⟨?_, ?_, ?_, ?_, ?_, ?_⟩
  · intro ops
    exact noZeroSlots_execList ops emptyState (by intro e he; cases he)
  · intro s addr inc loc init hfa
    exact update_storage_zero_noacct addr inc loc init s hfa
  · intro s addr inc loc init r hfa hsl
    exact update_storage_zero_noslot addr inc loc init s r hfa hsl
  · intro s addr inc loc init r e0 hfa hsl
    rw [update_storage_zero_erase addr inc loc init s r e0 hfa hsl]
  · intro s addr inc loc init cur r hcur hfa
    cases hsl : findSlot s.storage r.id loc with
    | none =>
      rw [update_storage_nz_acct_new addr inc loc init cur s r hcur hfa hsl]
      refine ⟨⟨r.id, nextId ((s.storage.filter (fun x => x.scope == r.id)).map
        (fun x => x.id)), loc, cur⟩, ?_, rfl, rfl⟩
      exact find?_append_cons_of_none
        (fun x hx => by simpa using List.find?_eq_none.1 hsl x hx) (by simp)
    | some e0 =>
      have hpe0 := List.find?_some hsl
      refine ⟨{ e0 with value := cur }, ?_, ?_, rfl⟩
      · rw [update_storage_nz_acct_mod addr inc loc init cur s r e0 hcur hfa hsl]
        exact find?_modifyFirst hsl (by simpa using hpe0)
      · simp only [Bool.and_eq_true, beq_iff_eq] at hpe0
        exact hpe0.2
  · intro s addr inc loc init cur hcur hfa
    cases hsl : findSlot s.storage (nextId (s.accounts.map (fun r => r.id))) loc with
    | none =>
      rw [update_storage_nz_noacct_new addr inc loc init cur s hcur hfa hsl]
      refine ⟨⟨nextId (s.accounts.map (fun r => r.id)),
        nextId ((s.storage.filter
          (fun x => x.scope == nextId (s.accounts.map (fun r => r.id)))).map
          (fun x => x.id)), loc, cur⟩, ?_, rfl, rfl⟩
      exact find?_append_cons_of_none
        (fun x hx => by simpa using List.find?_eq_none.1 hsl x hx) (by simp)
    | some e0 =>
      have hpe0 := List.find?_some hsl
      refine ⟨{ e0 with value := cur }, ?_, ?_, rfl⟩
      · rw [update_storage_nz_noacct_mod addr inc loc init cur s e0 hcur hfa hsl]
        exact find?_modifyFirst hsl (by simpa using hpe0)
      · simp only [Bool.and_eq_true, beq_iff_eq] at hpe0
        exact hpe0.2

/-- Witness for `zero_slot_sparsity`: a zero write to an unknown account
is a no-op. -/
theorem zero_slot_sparsity_witness :
    findAccount emptyState 7 = none ∧
    update_storage 7 0 2 0 0 emptyState = emptyState :=
  ⟨by decide, zero_slot_sparsity.2.1 emptyState 7 0 2 0 (by decide)⟩

/-- C9: an account lazily created by `update_storage` (first nonzero
write to an unknown address) stores the canonical empty-code hash as a
present `code_hash` with nonce 0, whereas `update_account` stores an
absent `code_hash` for empty code; deleting such a lazily created
account therefore takes the code-hash-present branch, finds no code
object for the empty hash, and falls into the defensive ignore branch —
the concrete trace shows the account erased and a storage-GC entry
enqueued while the code table and code-GC queue stay untouched. -/
theorem lazy_account_empty_hash :
    (∀ s addr inc loc init cur, cur ≠ 0 → findAccount s addr = none →
      (update_storage addr inc loc init cur s).accounts =
        s.accounts ++
          [⟨nextId (s.accounts.map (fun r => r.id)), addr, 0, 0, some kEmptyHash⟩]) ∧
    (∀ s addr i (cur : Account), ¬(some cur = i) → findAccount s addr = none →
      cur.code_hash = kEmptyHash →
      (update_account addr i (some cur) s).accounts =
        s.accounts ++
          [⟨nextId (s.accounts.map (fun r => r.id)), addr, cur.nonce,
            cur.balance, none⟩]) ∧
    ((update_storage 5 0 11 0 42 emptyState).accounts =
        [⟨0, 5, 0, 0, some kEmptyHash⟩] ∧
     findCode (update_storage 5 0 11 0 42 emptyState) kEmptyHash = none ∧
     (update_account 5 (some ⟨0, 0, kEmptyHash, 0⟩) none
        (update_storage 5 0 11 0 42 emptyState)).accounts = [] ∧
     (update_account 5 (some ⟨0, 0, kEmptyHash, 0⟩) none
        (update_storage 5 0 11 0 42 emptyState)).codes =
       (update_storage 5 0 11 0 42 emptyState).codes ∧
     (update_account 5 (some ⟨0, 0, kEmptyHash, 0⟩) none
        (update_storage 5 0 11 0 42 emptyState)).gc_code =
       (update_storage 5 0 11 0 42 emptyState).gc_code ∧
     (update_account 5 (some ⟨0, 0, kEmptyHash, 0⟩) none
        (update_storage 5 0 11 0 42 emptyState)).gc_store = [⟨0, 0⟩] ∧
     (update_account 5 (some ⟨0, 0, kEmptyHash, 0⟩) none
        (update_storage 5 0 11 0 42 emptyState)).storage =
       [⟨0, 0, 11, 42⟩]) := by
  refine ⟨?_, ?_, by decide, by decide, by decide, by decide, by decide, by decide,
    by decide⟩
  · intro s addr inc loc init cur hcur hfa
    cases hsl : findSlot s.storage (nextId (s.accounts.map (fun r => r.id))) loc with
    | none => rw [update_storage_nz_noacct_new addr inc loc init cur s hcur hfa hsl]
    | some e0 => rw [update_storage_nz_noacct_mod addr inc loc init cur s e0 hcur hfa hsl]
  · intro s addr i cur hne hfa hch
    rw [update_account_create_eq s addr i cur hne hfa]
    simp [normalizeHash, hch]

/-- Witness for `lazy_account_empty_hash`: the lazily created account for
address 5 carries `some kEmptyHash`. -/
theorem lazy_account_empty_hash_witness :
    findAccount emptyState 5 = none ∧
    (update_storage 5 0 11 0 42 emptyState).accounts =
      emptyState.accounts ++
        [⟨nextId (emptyState.accounts.map (fun r => r.id)), 5, 0, 0,
          some kEmptyHash⟩] :=
  ⟨by decide, lazy_account_empty_hash.1 emptyState 5 0 11 0 42 (by decide) (by decide)⟩

/-- Counterexample to C7 as stated: after a read caches address 5's
account id and the account is then deleted (its slots awaiting GC),
`read_storage` consults the per-transition `addr2id` cache first and
returns the stale slot value 42 — not the zero value the claim requires
for a nonexistent account. -/
theorem reads_never_fault_counterexample :
    findAccount (update_account 5 (some ⟨0, 0, kEmptyHash, 0⟩) none
        (update_storage 5 0 11 0 42 emptyState)) 5 = none ∧
    (read_storage (update_account 5 (some ⟨0, 0, kEmptyHash, 0⟩) none
        (update_storage 5 0 11 0 42 emptyState))
      (read_storage (update_storage 5 0 11 0 42 emptyState) emptyCaches 5 0 11).2
      5 0 11).1 = 42 :=
  ⟨by decide, by decide⟩

/-- C7 amended: every read is a total function that signals data absence
with an empty/zero result, never a fault — `read_account` of an unknown
address returns `none`; `read_storage` returns the zero value when the
address is not bound in the per-transition `addr2id` cache and the
account does not exist, and whenever the resolved scope has no record
for the key; `read_code` returns the empty view when the hash is not in
the per-transition code cache and is unknown or stored empty.  The cache
provisos are forced by the counterexample: a stale `addr2id` entry lets
a deleted account's leftover slot value surface until GC drains it. -/
theorem reads_never_fault (s : State) (c : Caches) (addr inc loc h : Nat) :
    (findAccount s addr = none → (read_account s c addr).1 = none) ∧
    (alookup addr c.addr2id = none → findAccount s addr = none →
      (read_storage s c addr inc loc).1 = 0) ∧
    (∀ i, alookup addr c.addr2id = some i → findSlot s.storage i loc = none →
      (read_storage s c addr inc loc).1 = 0) ∧
    (∀ r, alookup addr c.addr2id = none → findAccount s addr = some r →
      findSlot s.storage r.id loc = none →
      (read_storage s c addr inc loc).1 = 0) ∧
    (alookup h c.addr2code = none → findCode s h = none →
      (read_code s c h).1 = []) ∧
    (∀ row, alookup h c.addr2code = none → findCode s h = some row →
      row.code = [] → (read_code s c h).1 = []) := by
  refine ⟨?_, ?_, ?_, ?_, ?_, ?_⟩
  · intro hfa
    simp only [read_account, hfa]
  · intro hcache hfa
    simp only [read_storage, hcache, hfa]
  · intro i hcache hsl
    simp only [read_storage, hcache, hsl]
  · intro r hcache hfa hsl
    simp only [read_storage, hcache, hfa, hsl]
  · intro hcache hfc
    simp only [read_code, hcache, hfc]
  · intro row hcache hfc hrow
    simp only [read_code, hcache, hfc, hrow, List.length_nil, if_true]

/-- Witness for `reads_never_fault` on the empty state with empty
caches. -/
theorem reads_never_fault_witness :
    findAccount emptyState 9 = none ∧
    (read_account emptyState emptyCaches 9).1 = none ∧
    (read_storage emptyState emptyCaches 9 0 1).1 = 0 ∧
    (read_code emptyState emptyCaches 3).1 = [] :=
  ⟨by decide,
   (reads_never_fault emptyState emptyCaches 9 0 1 3).1 (by decide),
   (reads_never_fault emptyState emptyCaches 9 0 1 3).2.1 (by decide) (by decide),
   (reads_never_fault emptyState emptyCaches 9 0 1 3).2.2.2.2.1 (by decide) (by decide)⟩

/-! ### The ref-count invariant

`update_account`'s create/modify paths copy `current.code_hash` into the
account row without touching any ref_count, so the spec's ref-count
invariant only holds when code-hash adoption and release go through
`update_account_code` and account deletion.  `disciplinedB` captures
that usage discipline; `Inv` is the inductive invariant. -/

def disciplinedB (s : State) : Op → Bool
  | Op.updAccount addr _ cur =>
    match cur with
    | none => true
    | some a =>
      match findAccount s addr with
      | some r => normalizeHash a.code_hash == r.code_hash
      | none => a.code_hash == kEmptyHash
  | Op.updAccountCode addr _ h _ =>
    (h != kEmptyHash) &&
    (match findAccount s addr with
     | some r => (r.code_hash == none) || (r.code_hash == some kEmptyHash)
     | none => true) &&
    (match findCode s h with
     | some c => c.ref_count + 1 < 2 ^ 32
     | none => true)
  | _ => true

def disciplinedFrom (s : State) : List Op → Bool
  | [] => true
  | op :: rest => disciplinedB s op && disciplinedFrom (exec op s) rest

/-- The inductive state invariant: unique addresses, unique code hashes
and ids, no code object for the empty-code hash, every code object's
ref_count equal to the number of live accounts referencing its hash, and
every account's present code hash either the empty hash or backed by a
code object. -/
def Inv (s : State) : Prop :=
  (s.accounts.map (fun a => a.eth_address)).Nodup ∧
  (s.codes.map (fun c => c.code_hash)).Nodup ∧
  (s.codes.map (fun c => c.id)).Nodup ∧
  (∀ c ∈ s.codes, c.code_hash ≠ kEmptyHash) ∧
  (∀ c ∈ s.codes, c.ref_count = countRef s.accounts c.code_hash) ∧
  (∀ a ∈ s.accounts, ∀ h, a.code_hash = some h →
    h = kEmptyHash ∨ ∃ c ∈ s.codes, c.code_hash = h)

theorem countRef_append (l1 l2 : List AccountRow) (h : Nat) :
    countRef (l1 ++ l2) h = countRef l1 h + countRef l2 h := by
  simp [countRef, List.filter_append]

theorem countRef_cons (a : AccountRow) (l : List AccountRow) (h : Nat) :
    countRef (a :: l) h =
      (if a.code_hash == some h then 1 else 0) + countRef l h := by
  simp only [countRef, List.filter_cons]
  split <;> simp <;> omega

theorem countRef_nil (h : Nat) : countRef [] h = 0 := rfl

theorem countRef_eq_zero {l : List AccountRow} {h : Nat}
    (hl : ∀ a ∈ l, (a.code_hash == some h) = false) : countRef l h = 0 := by
  simp only [countRef, List.length_eq_zero, List.filter_eq_nil_iff]
  intro a ha
  simp [hl a ha]

theorem one_le_countRef {l : List AccountRow} {a : AccountRow} {h : Nat}
    (ha : a ∈ l) (hh : a.code_hash = some h) : 1 ≤ countRef l h := by
  have : a ∈ l.filter (fun r => r.code_hash == some h) :=
    List.mem_filter.2 ⟨ha, by simp [hh]⟩
  have hne : l.filter (fun r => r.code_hash == some h) ≠ [] := by
    intro hnil; rw [hnil] at this; cases this
  have := List.length_pos.2 hne
  simpa [countRef] using this

theorem nodup_append_singleton {l : List α} {a : α}
    (hl : l.Nodup) (ha : a ∉ l) : (l ++ [a]).Nodup := by
  rw [List.nodup_append]
  exact ⟨hl, List.nodup_singleton a, by
    intro x hx hmem
    rw [List.mem_singleton.1 hmem] at hx
    exact ha hx⟩

/-- An address with no account row does not occur in the address map. -/
theorem addr_not_mem_of_find_none {s : State} {addr : Nat}
    (hfa : findAccount s addr = none) :
    addr ∉ s.accounts.map (fun a => a.eth_address) := by
  intro hmem
  obtain ⟨a, ha, haddr⟩ := List.mem_map.1 hmem
  have := List.find?_eq_none.1 hfa a ha
  simp [haddr] at this

/-- A hash with no code row does not occur in the hash map. -/
theorem hash_not_mem_of_find_none {s : State} {h : Nat}
    (hfc : findCode s h = none) :
    h ∉ s.codes.map (fun c => c.code_hash) := by
  intro hmem
  obtain ⟨c, hc, hh⟩ := List.mem_map.1 hmem
  have := List.find?_eq_none.1 hfc c hc
  simp [hh] at this

/-- No account references a hash that is neither empty nor stored. -/
theorem countRef_zero_of_no_object {s : State} {h : Nat} (hInv : Inv s)
    (hne : h ≠ kEmptyHash) (hfc : findCode s h = none) :
    countRef s.accounts h = 0 := by
  apply countRef_eq_zero
  intro a ha
  by_cases hch : a.code_hash = some h
  · rcases hInv.2.2.2.2.2 a ha h hch with h1 | ⟨c, hc, hc2⟩
    · exact absurd h1 hne
    · have := List.find?_eq_none.1 hfc c hc
      simp [hc2] at this
  · simp [hch]

theorem Inv_update_storage (addr inc loc init cur : Nat) (s : State)
    (hInv : Inv s) : Inv (update_storage addr inc loc init cur s) := by
  obtain ⟨h1, h2, h3, h4, h5, h6⟩ := hInv
  have key : (update_storage addr inc loc init cur s).codes = s.codes ∧
      ((update_storage addr inc loc init cur s).accounts = s.accounts ∨
        (findAccount s addr = none ∧
         (update_storage addr inc loc init cur s).accounts =
           s.accounts ++ [⟨nextId (s.accounts.map (fun r => r.id)), addr, 0, 0,
             some kEmptyHash⟩])) := by
    by_cases hcur : cur = 0
    · subst hcur
      cases hfa : findAccount s addr with
      | none =>
        rw [update_storage_zero_noacct addr inc loc init s hfa]
        exact ⟨rfl, Or.inl rfl⟩
      | some r =>
        cases hsl : findSlot s.storage r.id loc with
        | none =>
          rw [update_storage_zero_noslot addr inc loc init s r hfa hsl]
          exact ⟨rfl, Or.inl rfl⟩
        | some e0 =>
          rw [update_storage_zero_erase addr inc loc init s r e0 hfa hsl]
          exact ⟨rfl, Or.inl rfl⟩
    · cases hfa : findAccount s addr with
      | some r =>
        cases hsl : findSlot s.storage r.id loc with
        | none =>
          rw [update_storage_nz_acct_new addr inc loc init cur s r hcur hfa hsl]
          exact ⟨rfl, Or.inl rfl⟩
        | some e0 =>
          rw [update_storage_nz_acct_mod addr inc loc init cur s r e0 hcur hfa hsl]
          exact ⟨rfl, Or.inl rfl⟩
      | none =>
        cases hsl : findSlot s.storage (nextId (s.accounts.map (fun r => r.id))) loc with
        | none =>
          rw [update_storage_nz_noacct_new addr inc loc init cur s hcur hfa hsl]
          exact ⟨rfl, Or.inr ⟨rfl, rfl⟩⟩
        | some e0 =>
          rw [update_storage_nz_noacct_mod addr inc loc init cur s e0 hcur hfa hsl]
          exact ⟨rfl, Or.inr ⟨rfl, rfl⟩⟩
  obtain ⟨hc, hacc⟩ := key
  rcases hacc with hacc | ⟨hfa, hacc⟩
  · refine ⟨by rw [hacc]; exact h1, by rw [hc]; exact h2, by rw [hc]; exact h3,
      by rw [hc]; exact h4, ?_, ?_⟩
    · intro c hmem
      rw [hc] at hmem
      rw [hacc]
      exact h5 c hmem
    · intro a ha h0 hch
      rw [hacc] at ha
      rcases h6 a ha h0 hch with h' | ⟨c3, hc3, hh3⟩
      · exact Or.inl h'
      · exact Or.inr ⟨c3, by rw [hc]; exact hc3, hh3⟩
  · refine ⟨?_, by rw [hc]; exact h2, by rw [hc]; exact h3, by rw [hc]; exact h4,
      ?_, ?_⟩
    · rw [hacc, List.map_append]
      exact nodup_append_singleton h1 (addr_not_mem_of_find_none hfa)
    · intro c hmem
      rw [hc] at hmem
      rw [hacc, countRef_append]
      have hz : countRef
          [⟨nextId (s.accounts.map (fun r => r.id)), addr, 0, 0, some kEmptyHash⟩]
          c.code_hash = 0 := by
        apply countRef_eq_zero
        intro a ha
        rw [List.mem_singleton.1 ha]
        have hne := h4 c hmem
        simp only [beq_eq_false_iff_ne, ne_eq, Option.some.injEq]
        exact fun hh => hne hh.symm
      rw [hz, Nat.add_zero]
      exact h5 c hmem
    · intro a ha h0 hch
      rw [hacc] at ha
      rcases List.mem_append.1 ha with ha | ha
      · rcases h6 a ha h0 hch with h' | ⟨c3, hc3, hh3⟩
        · exact Or.inl h'
        · exact Or.inr ⟨c3, by rw [hc]; exact hc3, hh3⟩
      · rw [List.mem_singleton.1 ha] at hch
        simp only [Option.some.injEq] at hch
        exact Or.inl hch.symm

/-- The `countRef` only depends on the code-hash column. -/
theorem countRef_map (l : List AccountRow) (h : Nat) :
    countRef l h =
      ((l.map (fun a => a.code_hash)).filter (fun oh => oh == some h)).length := by
  induction l with
  | nil => rfl
  | cons a rest ih =>
    rw [countRef_cons, List.map_cons, List.filter_cons, ih]
    split <;> simp <;> omega

theorem countRef_eq_of_map_eq {l1 l2 : List AccountRow}
    (hmap : l1.map (fun a => a.code_hash) = l2.map (fun a => a.code_hash))
    (h : Nat) : countRef l1 h = countRef l2 h := by
  rw [countRef_map, countRef_map, hmap]

theorem countRef_decomp (l1 l2 : List AccountRow) (a : AccountRow) (h : Nat) :
    countRef (l1 ++ a :: l2) h =
      countRef l1 h + ((if a.code_hash == some h then 1 else 0) + countRef l2 h) := by
  rw [countRef_append, countRef_cons]

theorem update_account_delete_absent (s : State) (addr : Nat) (init : Account)
    (hfa : findAccount s addr = none) :
    update_account addr (some init) none s = s := by
  have hne : ¬((none : Option Account) = some init) := by simp
  simp only [update_account, if_neg hne, hfa]

theorem Inv_update_account_some (addr : Nat) (i : Option Account) (cur : Account)
    (s : State) (hInv : Inv s)
    (hd : (match findAccount s addr with
           | some r => normalizeHash cur.code_hash == r.code_hash
           | none => cur.code_hash == kEmptyHash) = true) :
    Inv (update_account addr i (some cur) s) := by
  obtain ⟨h1, h2, h3, h4, h5, h6⟩ := hInv
  by_cases heq : (some cur = i)
  · rw [update_account_noop addr i (some cur) s heq]
    exact ⟨h1, h2, h3, h4, h5, h6⟩
  · cases hfa : findAccount s addr with
    | none =>
      rw [hfa] at hd
      have hch : cur.code_hash = kEmptyHash := by simpa using hd
      have hnorm : normalizeHash cur.code_hash = none := by simp [normalizeHash, hch]
      rw [update_account_create_eq s addr i cur heq hfa]
      refine ⟨?_, h2, h3, h4, ?_, ?_⟩
      · rw [List.map_append]
        exact nodup_append_singleton h1 (addr_not_mem_of_find_none hfa)
      · intro c hmem
        rw [countRef_append]
        have hz : countRef
            [⟨nextId (s.accounts.map (fun r => r.id)), addr, cur.nonce, cur.balance,
              normalizeHash cur.code_hash⟩] c.code_hash = 0 := by
          apply countRef_eq_zero
          intro a ha
          rw [List.mem_singleton.1 ha]
          simp [hnorm]
        rw [hz, Nat.add_zero]
        exact h5 c hmem
      · intro a ha h0 hch2
        rcases List.mem_append.1 ha with ha | ha
        · exact h6 a ha h0 hch2
        · rw [List.mem_singleton.1 ha] at hch2
          simp only [hnorm] at hch2
          cases hch2
    | some r =>
      rw [hfa] at hd
      have hch : normalizeHash cur.code_hash = r.code_hash := by simpa using hd
      rw [update_account_modify_eq s addr i cur r heq hfa]
      obtain ⟨la1, la2, hsplit, hl1, hpr⟩ := find?_decomp hfa
      have hmap_eth := modifyFirst_map
        (p := fun x : AccountRow => x.eth_address == addr)
        (f := fun a => { a with nonce := cur.nonce,
                                code_hash := normalizeHash cur.code_hash,
                                balance := cur.balance })
        (g := fun a => a.eth_address) (l := s.accounts) (fun x => rfl)
      have hmap_ch : (modifyFirst (fun x : AccountRow => x.eth_address == addr)
          (fun a => { a with nonce := cur.nonce,
                             code_hash := normalizeHash cur.code_hash,
                             balance := cur.balance })
          s.accounts).map (fun a => a.code_hash) =
          s.accounts.map (fun a => a.code_hash) := by
        rw [hsplit, modifyFirst_append_cons hl1 hpr]
        simp [List.map_append, hch]
      refine ⟨by rw [hmap_eth]; exact h1, h2, h3, h4, ?_, ?_⟩
      · intro c hmem
        rw [countRef_eq_of_map_eq hmap_ch]
        exact h5 c hmem
      · intro a ha h0 hch2
        rcases mem_modifyFirst ha with ha | ⟨y, hy, rfl⟩
        · exact h6 a ha h0 hch2
        · simp only [hch] at hch2
          exact h6 r (List.mem_of_find?_eq_some hfa) h0 hch2

theorem exists_hash_of_map_eq {l2 l : List CodeRow} {h : Nat}
    (hmap : l2.map (fun c => c.code_hash) = l.map (fun c => c.code_hash))
    (hex : ∃ c ∈ l, c.code_hash = h) : ∃ c ∈ l2, c.code_hash = h := by
  obtain ⟨c, hc, rfl⟩ := hex
  have hmem : c.code_hash ∈ l2.map (fun c => c.code_hash) := by
    rw [hmap]
    exact List.mem_map_of_mem _ hc
  obtain ⟨c4, hc4, hh4⟩ := List.mem_map.1 hmem
  exact ⟨c4, hc4, hh4⟩

theorem Inv_update_account_del (addr : Nat) (i : Option Account) (s : State)
    (hInv : Inv s) : Inv (update_account addr i none s) := by
  obtain ⟨h1, h2, h3, h4, h5, h6⟩ := hInv
  cases i with
  | none =>
    rw [update_account_noop addr none none s rfl]
    exact ⟨h1, h2, h3, h4, h5, h6⟩
  | some init =>
    cases hfa : findAccount s addr with
    | none =>
      rw [update_account_delete_absent s addr init hfa]
      exact ⟨h1, h2, h3, h4, h5, h6⟩
    | some r =>
      obtain ⟨la1, la2, hasplit, hal1, hapr⟩ := find?_decomp hfa
      have herase : s.accounts.eraseP (fun a => a.eth_address == addr) = la1 ++ la2 := by
        rw [hasplit]
        exact eraseP_append_cons hal1 hapr
      have hsubacc : List.Sublist (la1 ++ la2) s.accounts := by
        rw [hasplit]
        exact List.Sublist.append (List.Sublist.refl la1) (List.sublist_cons_self r la2)
      have hnodup1 : ((la1 ++ la2).map (fun a => a.eth_address)).Nodup :=
        h1.sublist (hsubacc.map _)
      cases hch : r.code_hash with
      | none =>
        rw [update_account_delete_nocode s addr init r hfa hch]
        refine ⟨by rw [herase]; exact hnodup1, h2, h3, h4, ?_, ?_⟩
        · intro c hmem
          rw [herase]
          have hcnt : countRef s.accounts c.code_hash =
              countRef (la1 ++ la2) c.code_hash := by
            rw [hasplit, countRef_decomp, countRef_append]
            simp [hch]
          rw [← hcnt]
          exact h5 c hmem
        · intro a ha h0 hch2
          rw [herase] at ha
          exact h6 a (hsubacc.subset ha) h0 hch2
      | some h =>
        cases hfc : findCode s h with
        | none =>
          rw [update_account_delete_codemissing s addr init r h hfa hch hfc]
          have hkE : h = kEmptyHash := by
            rcases h6 r (List.mem_of_find?_eq_some hfa) h hch with h' | ⟨c3, hc3, hh3⟩
            · exact h'
            · exfalso
              have := List.find?_eq_none.1 hfc c3 hc3
              simp [hh3] at this
          refine ⟨by rw [herase]; exact hnodup1, h2, h3, h4, ?_, ?_⟩
          · intro c hmem
            rw [herase]
            have hr0 : (r.code_hash == some c.code_hash) = false := by
              have hne := h4 c hmem
              rw [hch, hkE]
              simp only [beq_eq_false_iff_ne, ne_eq, Option.some.injEq]
              exact fun hh => hne hh.symm
            have hcnt : countRef s.accounts c.code_hash =
                countRef (la1 ++ la2) c.code_hash := by
              rw [hasplit, countRef_decomp, countRef_append, hr0]
              simp
            rw [← hcnt]
            exact h5 c hmem
          · intro a ha h0 hch2
            rw [herase] at ha
            exact h6 a (hsubacc.subset ha) h0 hch2
        | some c =>
          rw [update_account_delete_code s addr init r h c hfa hch hfc]
          have hceq : c.code_hash = h := by simpa using List.find?_some hfc
          have hrcge : 1 ≤ c.ref_count := by
            rw [h5 c (List.mem_of_find?_eq_some hfc), hceq]
            exact one_le_countRef (List.mem_of_find?_eq_some hfa) hch
          obtain ⟨lc1, lc2, hcsplit, hcl1, hcpr⟩ := find?_decomp hfc
          have hcmod : modifyFirst (fun c2 : CodeRow => c2.code_hash == h)
              (fun row => { row with ref_count :=
                if row.ref_count > 0 then row.ref_count - 1 else row.ref_count })
              s.codes = lc1 ++
                ({ c with ref_count :=
                  if c.ref_count > 0 then c.ref_count - 1 else c.ref_count }) :: lc2 := by
            rw [hcsplit]
            exact modifyFirst_append_cons hcl1 hcpr
          have hmap_hash := modifyFirst_map
            (p := fun c2 : CodeRow => c2.code_hash == h)
            (f := fun row => { row with ref_count :=
              if row.ref_count > 0 then row.ref_count - 1 else row.ref_count })
            (g := fun c2 => c2.code_hash) (l := s.codes) (fun x => rfl)
          have hmap_id := modifyFirst_map
            (p := fun c2 : CodeRow => c2.code_hash == h)
            (f := fun row => { row with ref_count :=
              if row.ref_count > 0 then row.ref_count - 1 else row.ref_count })
            (g := fun c2 => c2.id) (l := s.codes) (fun x => rfl)
          have hlc2 : ∀ c2 ∈ lc2, c2.code_hash ≠ h := by
            rw [hcsplit, List.map_append, List.map_cons] at h2
            have hnd2 := (List.nodup_append.1 h2).2.1
            rw [List.nodup_cons] at hnd2
            intro c2 hc2 hcontra
            apply hnd2.1
            rw [hceq] at *
            rw [← hcontra]
            exact List.mem_map_of_mem _ hc2
          refine ⟨by rw [herase]; exact hnodup1,
            by rw [hmap_hash]; exact h2,
            by rw [hmap_id]; exact h3, ?_, ?_, ?_⟩
          · intro c2 hmem
            rcases mem_modifyFirst hmem with hm | ⟨y, hy, rfl⟩
            · exact h4 c2 hm
            · exact h4 y hy
          · intro c2 hmem
            rw [hcmod] at hmem
            rw [herase]
            have hcntr : ∀ h' : Nat, h' ≠ h →
                countRef (la1 ++ la2) h' = countRef s.accounts h' := by
              intro h' hne
              rw [hasplit, countRef_decomp, countRef_append]
              have : (r.code_hash == some h') = false := by
                rw [hch]
                simp only [beq_eq_false_iff_ne, ne_eq, Option.some.injEq]
                exact fun hh => hne hh.symm
              rw [this]
              simp
            rcases List.mem_append.1 hmem with hm | hm
            · have hc2mem : c2 ∈ s.codes := by
                rw [hcsplit]
                exact List.mem_append.2 (Or.inl hm)
              have hne : c2.code_hash ≠ h := by
                intro hcontra
                have := hcl1 c2 hm
                simp [hcontra] at this
              rw [hcntr c2.code_hash hne]
              exact h5 c2 hc2mem
            · rcases List.mem_cons.1 hm with rfl | hm
              · have hrc : c.ref_count = countRef s.accounts h := by
                  rw [← hceq]
                  exact h5 c (List.mem_of_find?_eq_some hfc)
                have hcount : countRef s.accounts h =
                    countRef la1 h + (1 + countRef la2 h) := by
                  rw [hasplit, countRef_decomp]
                  rw [hch]
                  simp
                show (if c.ref_count > 0 then c.ref_count - 1 else c.ref_count) =
                  countRef (la1 ++ la2) _
                rw [if_pos (by omega)]
                have : ({ c with ref_count := c.ref_count - 1 }).code_hash = h := hceq
                rw [show ({ c with ref_count :=
                    if c.ref_count > 0 then c.ref_count - 1 else c.ref_count
                  } : CodeRow).code_hash = c.code_hash from rfl, hceq]
                rw [countRef_append]
                omega
              · have hc2mem : c2 ∈ s.codes := by
                  rw [hcsplit]
                  exact List.mem_append.2 (Or.inr (List.mem_cons_of_mem c hm))
                rw [hcntr c2.code_hash (hlc2 c2 hm)]
                exact h5 c2 hc2mem
          · intro a ha h0 hch2
            rw [herase] at ha
            rcases h6 a (hsubacc.subset ha) h0 hch2 with h' | hex
            · exact Or.inl h'
            · exact Or.inr (exists_hash_of_map_eq hmap_hash hex)

theorem Inv_update_account_code (addr inc h : Nat) (code : List Nat) (s : State)
    (hInv : Inv s) (hd1 : h ≠ kEmptyHash)
    (hd2 : ∀ r, findAccount s addr = some r →
      r.code_hash = none ∨ r.code_hash = some kEmptyHash)
    (hd3 : ∀ c, findCode s h = some c → c.ref_count + 1 < 2 ^ 32) :
    Inv (update_account_code addr inc h code s) := by
  have h1 := hInv.1
  have h2 := hInv.2.1
  have h3 := hInv.2.2.1
  have h4 := hInv.2.2.2.1
  have h5 := hInv.2.2.2.2.1
  have h6 := hInv.2.2.2.2.2
  rw [update_account_code_eq]
  cases hfc : findCode s h with
  | none =>
    have hcount0 : countRef s.accounts h = 0 :=
      countRef_zero_of_no_object hInv hd1 hfc
    have hnodup2 : ((s.codes ++
        [(⟨nextId (s.codes.map (fun c => c.id)), h, code, 1⟩ : CodeRow)]).map
          (fun c => c.code_hash)).Nodup := by
      rw [List.map_append]
      exact nodup_append_singleton h2 (hash_not_mem_of_find_none hfc)
    have hnodup3 : ((s.codes ++
        [(⟨nextId (s.codes.map (fun c => c.id)), h, code, 1⟩ : CodeRow)]).map
          (fun c => c.id)).Nodup := by
      rw [List.map_append]
      exact nodup_append_singleton h3 (nextId_not_mem (s.codes.map (fun c => c.id)))
    have hnewc4 : ∀ c2 ∈ s.codes ++
        [(⟨nextId (s.codes.map (fun c => c.id)), h, code, 1⟩ : CodeRow)],
        c2.code_hash ≠ kEmptyHash := by
      intro c2 hmem
      rcases List.mem_append.1 hmem with hm | hm
      · exact h4 c2 hm
      · rw [List.mem_singleton.1 hm]
        exact hd1
    have holdne : ∀ c2 ∈ s.codes, c2.code_hash ≠ h := by
      intro c2 hc2 hcontra
      have := List.find?_eq_none.1 hfc c2 hc2
      simp [hcontra] at this
    cases hfa : findAccount s addr with
    | none =>
      refine ⟨?_, hnodup2, hnodup3, hnewc4, ?_, ?_⟩
      · rw [List.map_append]
        exact nodup_append_singleton h1 (addr_not_mem_of_find_none hfa)
      · intro c2 hmem
        rw [countRef_append]
        rcases List.mem_append.1 hmem with hm | hm
        · have hcnt1 : countRef
              [⟨nextId (s.accounts.map (fun r => r.id)), addr, 0, 0, some h⟩]
              c2.code_hash = 0 := by
            apply countRef_eq_zero
            intro a ha
            rw [List.mem_singleton.1 ha]
            have := holdne c2 hm
            simp only [beq_eq_false_iff_ne, ne_eq, Option.some.injEq]
            exact fun hh => this hh.symm
          rw [hcnt1, Nat.add_zero]
          exact h5 c2 hm
        · rw [List.mem_singleton.1 hm]
          show 1 = countRef s.accounts h + countRef _ h
          have hcnt1 : countRef
              [⟨nextId (s.accounts.map (fun r => r.id)), addr, 0, 0, some h⟩] h = 1 := by
            rw [countRef_cons, countRef_nil]
            simp
          omega
      · intro a ha h0 hch2
        rcases List.mem_append.1 ha with hm | hm
        · rcases h6 a hm h0 hch2 with h' | ⟨c3, hc3, hh3⟩
          · exact Or.inl h'
          · exact Or.inr ⟨c3, List.mem_append.2 (Or.inl hc3), hh3⟩
        · rw [List.mem_singleton.1 hm] at hch2
          simp only [Option.some.injEq] at hch2
          subst hch2
          exact Or.inr ⟨⟨nextId (s.codes.map (fun c => c.id)), h, code, 1⟩,
            List.mem_append.2 (Or.inr (List.mem_singleton.2 rfl)), rfl⟩
    | some r =>
      have hrch := hd2 r hfa
      obtain ⟨la1, la2, hasplit, hal1, hapr⟩ := find?_decomp hfa
      have hamod : modifyFirst (fun a : AccountRow => a.eth_address == addr)
          (fun row => { row with code_hash := some h }) s.accounts =
          la1 ++ ({ r with code_hash := some h }) :: la2 := by
        rw [hasplit]
        exact modifyFirst_append_cons hal1 hapr
      have hmap_eth := modifyFirst_map
        (p := fun a : AccountRow => a.eth_address == addr)
        (f := fun row => { row with code_hash := some h })
        (g := fun a => a.eth_address) (l := s.accounts) (fun x => rfl)
      have hcnt_r : ∀ h', h' ≠ kEmptyHash → (r.code_hash == some h') = false := by
        intro h' hne
        rcases hrch with hr | hr <;> rw [hr] <;>
          simp only [beq_eq_false_iff_ne, ne_eq, Option.some.injEq, reduceCtorEq,
            not_false_eq_true] <;>
          exact fun hh => hne hh.symm
      refine ⟨by rw [hmap_eth]; exact h1, hnodup2, hnodup3, hnewc4, ?_, ?_⟩
      · intro c2 hmem
        rw [hamod]
        rcases List.mem_append.1 hmem with hm | hm
        · have hne := holdne c2 hm
          have hkE := h4 c2 hm
          rw [countRef_decomp]
          have hcnt2 : (({ r with code_hash := some h } : AccountRow).code_hash ==
              some c2.code_hash) = false := by
            simp only [beq_eq_false_iff_ne, ne_eq, Option.some.injEq]
            exact fun hh => hne hh.symm
          rw [hcnt2]
          have h5v := h5 c2 hm
          rw [hasplit, countRef_decomp, hcnt_r c2.code_hash hkE] at h5v
          simpa using h5v
        · rw [List.mem_singleton.1 hm]
          show (1 : Nat) = countRef _ h
          rw [countRef_decomp]
          have hcnt2 : (({ r with code_hash := some h } : AccountRow).code_hash ==
              some h) = true := by simp
          rw [hcnt2]
          have hz := hcount0
          rw [hasplit, countRef_decomp, hcnt_r h hd1] at hz
          simp at hz ⊢
          omega
      · intro a ha h0 hch2
        rw [hamod] at ha
        rcases List.mem_append.1 ha with hm | hm
        · rcases h6 a (by rw [hasplit]; exact List.mem_append.2 (Or.inl hm)) h0 hch2
            with h' | ⟨c3, hc3, hh3⟩
          · exact Or.inl h'
          · exact Or.inr ⟨c3, List.mem_append.2 (Or.inl hc3), hh3⟩
        · rcases List.mem_cons.1 hm with rfl | hm
          · simp only [Option.some.injEq] at hch2
            subst hch2
            exact Or.inr ⟨⟨nextId (s.codes.map (fun c => c.id)), h, code, 1⟩,
              List.mem_append.2 (Or.inr (List.mem_singleton.2 rfl)), rfl⟩
          · rcases h6 a (by
                rw [hasplit]
                exact List.mem_append.2 (Or.inr (List.mem_cons_of_mem r hm))) h0 hch2
              with h' | ⟨c3, hc3, hh3⟩
            · exact Or.inl h'
            · exact Or.inr ⟨c3, List.mem_append.2 (Or.inl hc3), hh3⟩
  | some c =>
    have hbound := hd3 c hfc
    have hceq : c.code_hash = h := by simpa using List.find?_some hfc
    have hmodrc : (c.ref_count + 1) % 2 ^ 32 = c.ref_count + 1 :=
      Nat.mod_eq_of_lt hbound
    obtain ⟨lc1, lc2, hcsplit, hcl1, hcpr⟩ := find?_decomp hfc
    have hcmod : modifyFirst (fun c2 : CodeRow => c2.code_hash == h)
        (fun row => { row with ref_count := (row.ref_count + 1) % 2 ^ 32 })
        s.codes = lc1 ++
          ({ c with ref_count := (c.ref_count + 1) % 2 ^ 32 }) :: lc2 := by
      rw [hcsplit]
      exact modifyFirst_append_cons hcl1 hcpr
    have hmap_hash := modifyFirst_map
      (p := fun c2 : CodeRow => c2.code_hash == h)
      (f := fun row => { row with ref_count := (row.ref_count + 1) % 2 ^ 32 })
      (g := fun c2 => c2.code_hash) (l := s.codes) (fun x => rfl)
    have hmap_id := modifyFirst_map
      (p := fun c2 : CodeRow => c2.code_hash == h)
      (f := fun row => { row with ref_count := (row.ref_count + 1) % 2 ^ 32 })
      (g := fun c2 => c2.id) (l := s.codes) (fun x => rfl)
    have hnewc4 : ∀ c2 ∈ modifyFirst (fun c2 : CodeRow => c2.code_hash == h)
        (fun row => { row with ref_count := (row.ref_count + 1) % 2 ^ 32 }) s.codes,
        c2.code_hash ≠ kEmptyHash := by
      intro c2 hmem
      rcases mem_modifyFirst hmem with hm | ⟨y, hy, rfl⟩
      · exact h4 c2 hm
      · exact h4 y hy
    have hlc1ne : ∀ c2 ∈ lc1, c2.code_hash ≠ h := by
      intro c2 hc2 hcontra
      have := hcl1 c2 hc2
      simp [hcontra] at this
    have hlc2ne : ∀ c2 ∈ lc2, c2.code_hash ≠ h := by
      rw [hcsplit, List.map_append, List.map_cons] at h2
      have hnd2 := (List.nodup_append.1 h2).2.1
      rw [List.nodup_cons] at hnd2
      intro c2 hc2 hcontra
      apply hnd2.1
      rw [hceq] at *
      rw [← hcontra]
      exact List.mem_map_of_mem _ hc2
    cases hfa : findAccount s addr with
    | none =>
      refine ⟨?_, by rw [hmap_hash]; exact h2, by rw [hmap_id]; exact h3, hnewc4,
        ?_, ?_⟩
      · rw [List.map_append]
        exact nodup_append_singleton h1 (addr_not_mem_of_find_none hfa)
      · intro c2 hmem
        rw [hcmod] at hmem
        rw [countRef_append]
        rcases List.mem_append.1 hmem with hm | hm
        · have hne := hlc1ne c2 hm
          have hcnt1 : countRef
              [⟨nextId (s.accounts.map (fun r => r.id)), addr, 0, 0, some h⟩]
              c2.code_hash = 0 := by
            apply countRef_eq_zero
            intro a ha
            rw [List.mem_singleton.1 ha]
            simp only [beq_eq_false_iff_ne, ne_eq, Option.some.injEq]
            exact fun hh => hne hh.symm
          rw [hcnt1, Nat.add_zero]
          exact h5 c2 (by rw [hcsplit]; exact List.mem_append.2 (Or.inl hm))
        · rcases List.mem_cons.1 hm with rfl | hm
          · show (c.ref_count + 1) % 2 ^ 32 = countRef s.accounts _ + countRef _ _
            rw [show ({ c with ref_count := (c.ref_count + 1) % 2 ^ 32
                } : CodeRow).code_hash = c.code_hash from rfl, hceq, hmodrc]
            have hcnt1 : countRef
                [⟨nextId (s.accounts.map (fun r => r.id)), addr, 0, 0, some h⟩] h = 1 := by
              rw [countRef_cons, countRef_nil]
              simp
            have h5v := h5 c (List.mem_of_find?_eq_some hfc)
            rw [hceq] at h5v
            omega
          · have hne := hlc2ne c2 hm
            have hcnt1 : countRef
                [⟨nextId (s.accounts.map (fun r => r.id)), addr, 0, 0, some h⟩]
                c2.code_hash = 0 := by
              apply countRef_eq_zero
              intro a ha
              rw [List.mem_singleton.1 ha]
              simp only [beq_eq_false_iff_ne, ne_eq, Option.some.injEq]
              exact fun hh => hne hh.symm
            rw [hcnt1, Nat.add_zero]
            exact h5 c2 (by
              rw [hcsplit]
              exact List.mem_append.2 (Or.inr (List.mem_cons_of_mem c hm)))
      · intro a ha h0 hch2
        rcases List.mem_append.1 ha with hm | hm
        · rcases h6 a hm h0 hch2 with h' | hex
          · exact Or.inl h'
          · exact Or.inr (exists_hash_of_map_eq hmap_hash hex)
        · rw [List.mem_singleton.1 hm] at hch2
          simp only [Option.some.injEq] at hch2
          subst hch2
          refine Or.inr ⟨({ c with ref_count := (c.ref_count + 1) % 2 ^ 32 } : CodeRow),
            ?_, hceq⟩
          rw [hcmod]
          exact List.mem_append.2 (Or.inr (List.mem_cons_self _ _))
    | some r =>
      have hrch := hd2 r hfa
      obtain ⟨la1, la2, hasplit, hal1, hapr⟩ := find?_decomp hfa
      have hamod : modifyFirst (fun a : AccountRow => a.eth_address == addr)
          (fun row => { row with code_hash := some h }) s.accounts =
          la1 ++ ({ r with code_hash := some h }) :: la2 := by
        rw [hasplit]
        exact modifyFirst_append_cons hal1 hapr
      have hmap_eth := modifyFirst_map
        (p := fun a : AccountRow => a.eth_address == addr)
        (f := fun row => { row with code_hash := some h })
        (g := fun a => a.eth_address) (l := s.accounts) (fun x => rfl)
      have hcnt_r : ∀ h', h' ≠ kEmptyHash → (r.code_hash == some h') = false := by
        intro h' hne
        rcases hrch with hr | hr <;> rw [hr] <;>
          simp only [beq_eq_false_iff_ne, ne_eq, Option.some.injEq, reduceCtorEq,
            not_false_eq_true] <;>
          exact fun hh => hne hh.symm
      refine ⟨by rw [hmap_eth]; exact h1, by rw [hmap_hash]; exact h2,
        by rw [hmap_id]; exact h3, hnewc4, ?_, ?_⟩
      · intro c2 hmem
        rw [hcmod] at hmem
        rw [hamod]
        rcases List.mem_append.1 hmem with hm | hm
        · have hne := hlc1ne c2 hm
          have hkE := h4 c2 (by rw [hcsplit]; exact List.mem_append.2 (Or.inl hm))
          rw [countRef_decomp]
          have hcnt2 : (({ r with code_hash := some h } : AccountRow).code_hash ==
              some c2.code_hash) = false := by
            simp only [beq_eq_false_iff_ne, ne_eq, Option.some.injEq]
            exact fun hh => hne hh.symm
          rw [hcnt2]
          have h5v := h5 c2 (by rw [hcsplit]; exact List.mem_append.2 (Or.inl hm))
          rw [hasplit, countRef_decomp, hcnt_r c2.code_hash hkE] at h5v
          simpa using h5v
        · rcases List.mem_cons.1 hm with rfl | hm
          · rw [show ({ c with ref_count := (c.ref_count + 1) % 2 ^ 32
                } : CodeRow).code_hash = c.code_hash from rfl, hceq]
            show (c.ref_count + 1) % 2 ^ 32 = countRef _ h
            rw [hmodrc, countRef_decomp]
            have hcnt2 : (({ r with code_hash := some h } : AccountRow).code_hash ==
                some h) = true := by simp
            rw [hcnt2]
            have h5v := h5 c (List.mem_of_find?_eq_some hfc)
            rw [hceq, hasplit, countRef_decomp, hcnt_r h hd1] at h5v
            simp at h5v ⊢
            omega
          · have hne := hlc2ne c2 hm
            have hkE := h4 c2 (by
              rw [hcsplit]
              exact List.mem_append.2 (Or.inr (List.mem_cons_of_mem c hm)))
            rw [countRef_decomp]
            have hcnt2 : (({ r with code_hash := some h } : AccountRow).code_hash ==
                some c2.code_hash) = false := by
              simp only [beq_eq_false_iff_ne, ne_eq, Option.some.injEq]
              exact fun hh => hne hh.symm
            rw [hcnt2]
            have h5v := h5 c2 (by
              rw [hcsplit]
              exact List.mem_append.2 (Or.inr (List.mem_cons_of_mem c hm)))
            rw [hasplit, countRef_decomp, hcnt_r c2.code_hash hkE] at h5v
            simpa using h5v
      · intro a ha h0 hch2
        rw [hamod] at ha
        rcases List.mem_append.1 ha with hm | hm
        · rcases h6 a (by rw [hasplit]; exact List.mem_append.2 (Or.inl hm)) h0 hch2
            with h' | hex
          · exact Or.inl h'
          · exact Or.inr (exists_hash_of_map_eq hmap_hash hex)
        · rcases List.mem_cons.1 hm with rfl | hm
          · simp only [Option.some.injEq] at hch2
            subst hch2
            refine Or.inr ⟨({ c with ref_count := (c.ref_count + 1) % 2 ^ 32 } : CodeRow),
              ?_, hceq⟩
            rw [hcmod]
            exact List.mem_append.2 (Or.inr (List.mem_cons_self _ _))
          · rcases h6 a (by
                rw [hasplit]
                exact List.mem_append.2 (Or.inr (List.mem_cons_of_mem r hm))) h0 hch2
              with h' | hex
            · exact Or.inl h'
            · exact Or.inr (exists_hash_of_map_eq hmap_hash hex)

/-- A code row with nonzero ref_count survives one code-GC step. -/
theorem gcCodeStep_keep (max : Nat) (j : GcCodeRow) {codes : List CodeRow}
    (hnd : (codes.map (fun c => c.id)).Nodup) {x : CodeRow} (hx : x ∈ codes)
    (hrc : x.ref_count ≠ 0) : x ∈ (gcCodeStep max j codes).2 := by
  simp only [gcCodeStep]
  cases hf : codes.find? (fun c : CodeRow => c.id == j.code_id) with
  | none => exact hx
  | some c =>
    dsimp only
    by_cases hcond : max ≠ 0 ∧ c.ref_count = 0
    · rw [if_pos hcond]
      have hxc : x ≠ c := fun heq => hrc (by rw [heq, hcond.2])
      apply mem_eraseP_of_not hx
      by_cases hid : x.id = j.code_id
      · exfalso
        have hcid : c.id = j.code_id := by simpa using List.find?_some hf
        exact hxc (List.inj_on_of_nodup_map hnd hx
          (List.mem_of_find?_eq_some hf) (by rw [hid, hcid]))
      · simp [hid]
    · rw [if_neg hcond]
      exact hx

/-- A code row with nonzero ref_count survives the whole code-GC loop. -/
theorem gcCodeLoop_keep (q : List GcCodeRow) :
    ∀ (max : Nat) (codes : List CodeRow), (codes.map (fun c => c.id)).Nodup →
    ∀ x ∈ codes, x.ref_count ≠ 0 → x ∈ (gcCodeLoop max q codes).2.2 := by
  induction q with
  | nil =>
    intro max codes _ x hx _
    exact hx
  | cons j rest ih =>
    intro max codes hnd x hx hrc
    simp only [gcCodeLoop]
    by_cases hmax : max = 0
    · rw [if_pos hmax]
      exact hx
    · rw [if_neg hmax]
      have hstep := gcCodeStep_keep max j hnd hx hrc
      have hsub := (gcCodeStep_spec max j codes).1
      have hnd2 : ((gcCodeStep max j codes).2.map (fun c => c.id)).Nodup :=
        hnd.sublist (hsub.map _)
      by_cases hz : (gcCodeStep max j codes).1 = 0
      · rw [if_pos hz]
        exact hstep
      · rw [if_neg hz]
        exact ih ((gcCodeStep max j codes).1 - 1) (gcCodeStep max j codes).2
          hnd2 x hstep hrc

theorem gc_codes_sublist (m : Nat) (s : State) :
    List.Sublist (gc m s).2.codes s.codes :=
  (gcCodeLoop_spec s.gc_code (gcStoreLoop m s.gc_store s.storage).1 s.codes).1

theorem Inv_gc (m : Nat) (s : State) (hInv : Inv s) : Inv (gc m s).2 := by
  have h1 := hInv.1
  have h2 := hInv.2.1
  have h3 := hInv.2.2.1
  have h4 := hInv.2.2.2.1
  have h5 := hInv.2.2.2.2.1
  have h6 := hInv.2.2.2.2.2
  have hacc : (gc m s).2.accounts = s.accounts := rfl
  have hsubc : List.Sublist (gc m s).2.codes s.codes := gc_codes_sublist m s
  refine ⟨?_, ?_, ?_, ?_, ?_, ?_⟩
  · rw [hacc]
    exact h1
  · exact h2.sublist (hsubc.map _)
  · exact h3.sublist (hsubc.map _)
  · intro c hc
    exact h4 c (hsubc.subset hc)
  · intro c hc
    rw [hacc]
    exact h5 c (hsubc.subset hc)
  · intro a ha h0 hch2
    rw [hacc] at ha
    rcases h6 a ha h0 hch2 with h' | ⟨c3, hc3, hh3⟩
    · exact Or.inl h'
    · refine Or.inr ⟨c3, ?_, hh3⟩
      have hrc3 : c3.ref_count ≠ 0 := by
        rw [h5 c3 hc3, hh3]
        have := one_le_countRef ha hch2
        omega
      exact gcCodeLoop_keep s.gc_code (gcStoreLoop m s.gc_store s.storage).1
        s.codes h3 c3 hc3 hrc3

theorem Inv_exec (op : Op) (s : State) (hInv : Inv s)
    (hd : disciplinedB s op = true) : Inv (exec op s) := by
  cases op with
  | updAccount addr i cur =>
    cases cur with
    | none => exact Inv_update_account_del addr i s hInv
    | some a =>
      apply Inv_update_account_some addr i a s hInv
      simpa only [disciplinedB] using hd
  | updAccountCode addr inc h code =>
    simp only [disciplinedB, Bool.and_eq_true] at hd
    obtain ⟨⟨hda, hdb⟩, hdc⟩ := hd
    apply Inv_update_account_code addr inc h code s hInv
    · simpa using hda
    · intro r hfa
      rw [hfa] at hdb
      simpa using hdb
    · intro c hfc
      rw [hfc] at hdc
      simpa using hdc
  | updStorage addr inc loc i c => exact Inv_update_storage addr inc loc i c s hInv
  | runGc m => exact Inv_gc m s hInv
  | beginBlock n => exact hInv

theorem Inv_execList (ops : List Op) :
    ∀ s : State, Inv s → disciplinedFrom s ops = true → Inv (execList ops s) := by
  induction ops with
  | nil =>
    intro s hInv _
    exact hInv
  | cons op rest ih =>
    intro s hInv hd
    simp only [disciplinedFrom, Bool.and_eq_true] at hd
    exact ih (exec op s) (Inv_exec op s hInv hd.1) hd.2

theorem Inv_emptyState : Inv emptyState := by
  refine ⟨List.nodup_nil, List.nodup_nil, List.nodup_nil, ?_, ?_, ?_⟩ <;>
    intro c hc <;> cases hc

/-- Counterexample to C1 as stated: `update_account`'s modify path sets
the account's `code_hash` without adjusting any ref_count.  Installing
code with hash 99 on account 7 and then reporting account 7's current
snapshot with the empty code hash leaves the code object at ref_count 1
while zero live accounts reference hash 99 — and this mismatch is not
the transient decrement-to-zero window: no decrement happened and the
code-GC queue is empty. -/
theorem refcount_invariant_counterexample :
    (update_account 7 (some ⟨0, 0, 99, 0⟩) (some ⟨1, 0, kEmptyHash, 0⟩)
        (update_account_code 7 0 99 [1, 2] emptyState)).codes =
      [⟨0, 99, [1, 2], 1⟩] ∧
    countRef (update_account 7 (some ⟨0, 0, 99, 0⟩) (some ⟨1, 0, kEmptyHash, 0⟩)
        (update_account_code 7 0 99 [1, 2] emptyState)).accounts 99 = 0 ∧
    (update_account 7 (some ⟨0, 0, 99, 0⟩) (some ⟨1, 0, kEmptyHash, 0⟩)
        (update_account_code 7 0 99 [1, 2] emptyState)).gc_code = [] :=
  ⟨by decide, by decide, by decide⟩

/-- C1 amended: for every code hash present in the code store, ref_count
equals the number of live accounts whose `code_hash` equals it — with
both sides 0 (no transient mismatch) between a decrement-to-zero and the
GC sweep — provided code-hash adoption and release go only through
`update_account_code` and account deletion: `update_account` must not
change an existing account's stored code hash and must create accounts
only without code, `update_account_code` must use a non-empty hash on an
account currently holding no code, and fewer than `2^32` accounts share
a hash (`disciplinedB`).  `update_account`'s create/modify paths adjust
no ref_count, which refutes the unrestricted claim (see the
counterexample). -/
theorem refcount_invariant (ops : List Op)
    (hd : disciplinedFrom emptyState ops = true) :
    ∀ c ∈ (execList ops emptyState).codes,
      c.ref_count = countRef (execList ops emptyState).accounts c.code_hash :=
  (Inv_execList ops emptyState Inv_emptyState hd).2.2.2.2.1

/-- Witness for `refcount_invariant`: install code, delete the account;
the surviving object has ref_count 0 = number of referencing accounts. -/
theorem refcount_invariant_witness :
    disciplinedFrom emptyState
      [Op.updAccountCode 7 0 99 [1, 2], Op.updAccount 7 (some ⟨0, 0, 99, 0⟩) none]
      = true ∧
    (⟨0, 99, [1, 2], 0⟩ : CodeRow).ref_count =
      countRef (execList
        [Op.updAccountCode 7 0 99 [1, 2], Op.updAccount 7 (some ⟨0, 0, 99, 0⟩) none]
        emptyState).accounts (⟨0, 99, [1, 2], 0⟩ : CodeRow).code_hash :=
  ⟨by decide,
   refcount_invariant
     [Op.updAccountCode 7 0 99 [1, 2], Op.updAccount 7 (some ⟨0, 0, 99, 0⟩) none]
     (by decide) ⟨0, 99, [1, 2], 0⟩ (by decide)⟩

/-- C8: every chain-boundary operation (`read_header`, `read_body`,
`total_difficulty`, `current_canonical_block`, `canonical_hash`,
`insert_block`, `canonize_block`, `decanonize_block`, `insert_receipts`,
`unwind_state_changes`, `state_root_hash`) aborts the transition with a
"not implemented" check failure and never returns a value, while
`previous_incarnation` always returns 0 and `begin_block` is a no-op. -/
theorem chain_boundary_stubs (bn bh blk h a n : Nat) (rs : List Nat) (s : State) :
    read_header bn bh = Except.error "read_header not implemented" ∧
    read_body bn bh = Except.error "read_body not implemented" ∧
    total_difficulty bn bh = Except.error "total_difficulty not implemented" ∧
    current_canonical_block = Except.error "current_canonical_block not implemented" ∧
    canonical_hash bn = Except.error "canonical_hash not implemented" ∧
    insert_block blk h = Except.error "insert_block not implemented" ∧
    canonize_block bn bh = Except.error "canonize_block not implemented" ∧
    decanonize_block bn = Except.error "decanonize_block not implemented" ∧
    insert_receipts bn rs = Except.error "insert_receipts not implemented" ∧
    unwind_state_changes bn = Except.error "unwind_state_changes not implemented" ∧
    state_root_hash = Except.error "state_root_hash not implemented" ∧
    previous_incarnation a = 0 ∧
    begin_block n s = s :=
  ⟨rfl, rfl, rfl, rfl, rfl, rfl, rfl, rfl, rfl, rfl, rfl, rfl, rfl⟩

end EvmRuntime
